import Mathlib

/-!
Verification development for the AIATHENA agent (src/aiathena/agent.py).

The embedding models, from the source:
* the secret-detection regular expressions `SECRET_PATTERNS` (agent.py lines
  271-280) as deterministic character-list matchers (each of these eight
  regexes is backtracking-free: its character classes are pairwise disjoint at
  every choice point, so the greedy reading coincides with Python's
  semantics); `re.search` and `re.sub` as scanners over those matchers;
* `contains_secrets`, `contains_harmful_content`, `contains_self_reference`,
  `sanitize_content` and `validate_output_content` (lines 310-362);
* the action-history ledger records, the governed tool functions
  `create_post`, `upvote_post`, `follow_agent` (lines 382-559), and the
  execute block of the `run_agent` loop body (lines 622-707).

Python's `\w` and `\s` are modelled on their ASCII fragment
(alphanumerics plus underscore, and ASCII whitespace).
-/

namespace Aiathena

/-- The character `[` (start of the redaction marker). -/
def bra : Char := '['

/-- The character `]` (end of the redaction marker). -/
def ket : Char := ']'

/-- The single-quote character (written via its code point). -/
def quoteS : Char := Char.ofNat 39

/-- The double-quote character. -/
def quoteD : Char := '"'

/-- The inner letters of the redaction marker `[REDACTED]`. -/
def redactedCore : List Char := ['R', 'E', 'D', 'A', 'C', 'T', 'E', 'D']

/-- The full redaction marker `[REDACTED]` used by `re.sub` in
`sanitize_content`. -/
def redacted : List Char := bra :: (redactedCore ++ [ket])

/-- Python `\s` (ASCII fragment): space, tab, newline, return, vertical
tab, form feed. -/
def isSpaceCh (c : Char) : Bool :=
  c = ' ' || c = '\t' || c = '\n' || c = '\r' || c = '\x0b' || c = '\x0c'

/-- Python `\w` (ASCII fragment): alphanumerics and underscore. -/
def isWordCh (c : Char) : Bool := c.isAlphanum || c = '_'

/-- The class `[\s:=]` from the api-key pattern. -/
def isSepCh (c : Char) : Bool := isSpaceCh c || c = ':' || c = '='

/-- The class `['"]` from the api-key pattern. -/
def isQuoteCh (c : Char) : Bool := c = quoteS || c = quoteD

/-- The class `[\w\-]` from the api-key pattern. -/
def isWordHyphen (c : Char) : Bool := isWordCh c || c = '-'

/-- The class `[a-zA-Z0-9\-_]` (bearer tokens, Google keys). -/
def isTokCh (c : Char) : Bool := c.isAlphanum || c = '-' || c = '_'

/-- The class `[a-zA-Z0-9]`. -/
def isAlnumCh (c : Char) : Bool := c.isAlphanum

/-- The class `[a-f0-9]` (lowercase hex) from the 64-hex pattern. -/
def isLowerHex (c : Char) : Bool :=
  c.isDigit || (decide (97 ≤ c.toNat) && decide (c.toNat ≤ 102))

/-- The class `[\w/]` from the file-path pattern. -/
def isWordSlash (c : Char) : Bool := isWordCh c || c = '/'

/-- The class `[A-Z_]` under the `(?i)` flag: letters and underscore. -/
def isAlphaUnd (c : Char) : Bool := c.isAlpha || c = '_'

/-- Character comparison, optionally case-insensitive (the `(?i)` flag). -/
def chEq (ci : Bool) (x c : Char) : Bool :=
  if ci then x.toLower == c.toLower else x == c

/-- One component of a (backtracking-free) regular expression:
literal word, alternation of literal words, `class{k}`, `class{k,}`
(greedy) and `class?` (greedy). -/
inductive Pat where
  | lit : Bool → List Char → Pat
  | alts : Bool → List (List Char) → Pat
  | exactK : (Char → Bool) → Nat → Pat
  | atLeastK : (Char → Bool) → Nat → Pat
  | optC : (Char → Bool) → Pat

/-- Consume a literal word (`ci` = case-insensitive); return the rest. -/
def dropLit (ci : Bool) : List Char → List Char → Option (List Char)
  | [], s => some s
  | _ :: _, [] => none
  | x :: w, c :: s => if chEq ci x c then dropLit ci w s else none

/-- Consume the first literal alternative that matches; return the rest. -/
def dropAlts (ci : Bool) : List (List Char) → List Char → Option (List Char)
  | [], _ => none
  | w :: ws, s =>
    match dropLit ci w s with
    | some t => some t
    | none => dropAlts ci ws s

/-- Consume exactly `k` characters of class `p`; return the rest. -/
def dropExact (p : Char → Bool) : Nat → List Char → Option (List Char)
  | 0, s => some s
  | _ + 1, [] => none
  | k + 1, c :: s => if p c then dropExact p k s else none

/-- Greedily consume the maximal run of class `p`, requiring at least `k`
characters; return the rest. -/
def dropAtLeast (p : Char → Bool) (k : Nat) (s : List Char) :
    Option (List Char) :=
  if k ≤ (s.takeWhile p).length then some (s.dropWhile p) else none

/-- Greedily consume one character of class `p` if present. -/
def dropOpt (p : Char → Bool) : List Char → List Char
  | [] => []
  | c :: s => if p c then s else c :: s

/-- Match one component at the head of the string; return the rest. -/
def matchPat : Pat → List Char → Option (List Char)
  | .lit ci w, s => dropLit ci w s
  | .alts ci ws, s => dropAlts ci ws s
  | .exactK p k, s => dropExact p k s
  | .atLeastK p k, s => dropAtLeast p k s
  | .optC p, s => some (dropOpt p s)

/-- Match a sequence of components at the head of the string (anchored
match of a whole pattern); return the rest after the match. -/
def matchSeq : List Pat → List Char → Option (List Char)
  | [], s => some s
  | p :: ps, s =>
    match matchPat p s with
    | some t => matchSeq ps t
    | none => none

/-- `(?i)(api[_-]?key|secret|token|password|credential)[\s:=]+['"]?[\w\-]{16,}`
(agent.py line 272).  The `api[_-]?key` alternative is expanded into its
three literal spellings, tried in Python's greedy order. -/
def pat1 : List Pat :=
  [.alts true ["api_key".data, "api-key".data, "apikey".data, "secret".data,
               "token".data, "password".data, "credential".data],
   .atLeastK isSepCh 1, .optC isQuoteCh, .atLeastK isWordHyphen 16]

/-- `(?i)bearer\s+[a-zA-Z0-9\-_]+` (line 273). -/
def pat2 : List Pat :=
  [.lit true "bearer".data, .atLeastK isSpaceCh 1, .atLeastK isTokCh 1]

/-- `AIza[0-9A-Za-z\-_]{35}` (line 274). -/
def pat3 : List Pat := [.lit false "AIza".data, .exactK isTokCh 35]

/-- `sk-[a-zA-Z0-9]{32,}` (line 275). -/
def pat4 : List Pat := [.lit false "sk-".data, .atLeastK isAlnumCh 32]

/-- `ghp_[a-zA-Z0-9]{36}` (line 276). -/
def pat5 : List Pat := [.lit false "ghp_".data, .exactK isAlnumCh 36]

/-- `[a-f0-9]{64}` (line 277): 64 lowercase-hex characters. -/
def pat6 : List Pat := [.exactK isLowerHex 64]

/-- `/Users/[\w/]+` (line 278). -/
def pat7 : List Pat := [.lit false "/Users/".data, .atLeastK isWordSlash 1]

/-- `(?i)env\.[A-Z_]+` (line 279). -/
def pat8 : List Pat := [.lit true "env.".data, .atLeastK isAlphaUnd 1]

/-- The ordered list `SECRET_PATTERNS` (lines 271-280). -/
def SECRET_PATTERNS : List (List Pat) :=
  [pat1, pat2, pat3, pat4, pat5, pat6, pat7, pat8]

/-- `re.search`: does the pattern match starting at some position? -/
def searchAux (ps : List Pat) : List Char → Bool
  | [] => (matchSeq ps []).isSome
  | c :: s => (matchSeq ps (c :: s)).isSome || searchAux ps s

/-- `re.sub(pattern, '[REDACTED]', s)`: replace each leftmost
non-overlapping match with the redaction marker.  Written with a fuel
argument (any fuel at least the string length gives the same result, see
`substFuel_congr`) so that the function reduces by iota in the kernel. -/
def substFuel (ps : List Pat) : Nat → List Char → List Char
  | _, [] => []
  | 0, l => l
  | f + 1, c :: s =>
    match matchSeq ps (c :: s) with
    | some rest =>
      redacted ++ substFuel ps f (List.drop (s.length - rest.length) s)
    | none => c :: substFuel ps f s

/-- `re.sub` with sufficient fuel. -/
def substAux (ps : List Pat) (s : List Char) : List Char :=
  substFuel ps s.length s

/-- `contains_secrets` (lines 310-315): any secret pattern found. -/
def contains_secrets (text : String) : Bool :=
  SECRET_PATTERNS.any fun ps => searchAux ps text.data

/-- `sanitize_content` (lines 342-347): apply each pattern's `re.sub`
in list order. -/
def sanitize_content (text : String) : String :=
  String.mk (SECRET_PATTERNS.foldl (fun s ps => substAux ps s) text.data)

/-- Is the character a newline?  Python `.` does not match it. -/
def isNl (c : Char) : Bool := c = '\n'

/-- `.{0,k}` followed by a continuation: try every gap length `0..k`
over non-newline characters (existence semantics). -/
def gapThen (f : List Char → Bool) : Nat → List Char → Bool
  | 0, s => f s
  | k + 1, s =>
    f s ||
      match s with
      | [] => false
      | c :: cs => !isNl c && gapThen f k cs

/-- A trailing `\b` after a word character: next char is not a word
character (or end of string). -/
def wbAfter : List Char → Bool
  | [] => true
  | c :: _ => !isWordCh c

/-- Alternation of literal words followed by a continuation (Boolean
existence semantics). -/
def altLit (ci : Bool) (ws : List (List Char)) (f : List Char → Bool)
    (s : List Char) : Bool :=
  ws.any fun w =>
    match dropLit ci w s with
    | some t => f t
    | none => false

/-- Scan all positions, tracking whether the position is at a `\b`
boundary for a word-character start (start of string, or previous
character not a word character). -/
def scanWB (hit : List Char → Bool) : Bool → List Char → Bool
  | atB, [] => atB && hit []
  | atB, c :: cs => (atB && hit (c :: cs)) || scanWB hit (!isWordCh c) cs

/-- Scan all positions with no boundary requirement. -/
def scanPlain (hit : List Char → Bool) : List Char → Bool
  | [] => hit []
  | c :: cs => hit (c :: cs) || scanPlain hit cs

/-- `(?i)\b(kill|murder|attack|bomb|terrorist|suicide)\b` (line 295),
matcher at one position. -/
def h1hit (s : List Char) : Bool :=
  altLit true ["kill".data, "murder".data, "attack".data, "bomb".data,
               "terrorist".data, "suicide".data] wbAfter s

/-- The `pump.?and.?dump` alternative of line 296, at one position. -/
def pumpHit (s : List Char) : Bool :=
  match dropLit true "pump".data s with
  | none => false
  | some t =>
    gapThen (fun t2 =>
      match dropLit true "and".data t2 with
      | none => false
      | some t3 =>
        gapThen (fun t4 =>
          match dropLit true "dump".data t4 with
          | none => false
          | some t5 => wbAfter t5) 1 t3) 1 t

/-- `(?i)\b(scam|fraud|ponzi|rugpull|pump.?and.?dump)\b` (line 296),
at one position. -/
def h2hit (s : List Char) : Bool :=
  altLit true ["scam".data, "fraud".data, "ponzi".data, "rugpull".data]
    wbAfter s || pumpHit s

/-- The literal `can't lose` (with the quote written via its code point). -/
def cantLose : List Char := ['c', 'a', 'n'] ++ [quoteS] ++ "t lose".data

/-- `(?i)(guaranteed.{0,10}(returns|profit)|100%.{0,5}(profit|returns|gains)|can\'t lose|risk.?free)`
(line 297), at one position. -/
def h3hit (s : List Char) : Bool :=
  (match dropLit true "guaranteed".data s with
   | none => false
   | some t =>
     gapThen (altLit true ["returns".data, "profit".data] (fun _ => true))
       10 t) ||
  (match dropLit true "100%".data s with
   | none => false
   | some t =>
     gapThen
       (altLit true ["profit".data, "returns".data, "gains".data]
         (fun _ => true)) 5 t) ||
  (dropLit true cantLose s).isSome ||
  (match dropLit true "risk".data s with
   | none => false
   | some t =>
     gapThen (fun t2 => (dropLit true "free".data t2).isSome) 1 t)

/-- `(?i)\b(buy now|act fast|limited time|last chance).{0,30}(crypto|coin|token)`
(line 298), at one position. -/
def h4hit (s : List Char) : Bool :=
  altLit true ["buy now".data, "act fast".data, "limited time".data,
               "last chance".data]
    (gapThen
      (altLit true ["crypto".data, "coin".data, "token".data] (fun _ => true))
      30) s

/-- `(?i)\b(hate|racist|sexist|homophobic)\b` (line 299), at one position. -/
def h5hit (s : List Char) : Bool :=
  altLit true ["hate".data, "racist".data, "sexist".data, "homophobic".data]
    wbAfter s

/-- `HARMFUL_CONTENT_PATTERNS` (lines 294-300) as position-search
functions, in source order. -/
def HARMFUL_CONTENT_PATTERNS : List (List Char → Bool) :=
  [scanWB h1hit true, scanWB h2hit true, scanPlain h3hit,
   scanWB h4hit true, scanWB h5hit true]

/-- `contains_harmful_content` (lines 326-331). -/
def contains_harmful_content (text : String) : Bool :=
  HARMFUL_CONTENT_PATTERNS.any fun f => f text.data

/-- `(?i)\b(my|our) (system prompt|instructions|api|configuration)`
(line 304), at one position. -/
def s1hit (s : List Char) : Bool :=
  altLit true ["my ".data, "our ".data]
    (altLit true ["system prompt".data, "instructions".data, "api".data,
                  "configuration".data] (fun _ => true)) s

/-- `(?i)\b(pydantic|gemini|google).{0,20}(model|api|key)` (line 305),
at one position. -/
def s2hit (s : List Char) : Bool :=
  altLit true ["pydantic".data, "gemini".data, "google".data]
    (gapThen
      (altLit true ["model".data, "api".data, "key".data] (fun _ => true))
      20) s

/-- `(?i)\b(moltbook).{0,10}(client|token|secret)` (line 306),
at one position. -/
def s3hit (s : List Char) : Bool :=
  altLit true ["moltbook".data]
    (gapThen
      (altLit true ["client".data, "token".data, "secret".data]
        (fun _ => true)) 10) s

/-- `SELF_REFERENCE_PATTERNS` (lines 303-307) as search functions. -/
def SELF_REFERENCE_PATTERNS : List (List Char → Bool) :=
  [scanWB s1hit true, scanWB s2hit true, scanWB s3hit true]

/-- `contains_self_reference` (lines 334-339). -/
def contains_self_reference (text : String) : Bool :=
  SELF_REFERENCE_PATTERNS.any fun f => f text.data

/-- `validate_output_content` (lines 350-362): checks in fixed priority
order, first failure short-circuits. -/
def validate_output_content (text : String) : Bool × Option String :=
  if contains_secrets text then
    (false, some "Content contains potential secrets")
  else if contains_harmful_content text then
    (false, some "Content contains harmful or prohibited material")
  else if contains_self_reference text then
    (false, some "Content reveals internal implementation details")
  else if text.length < 10 then
    (false, some "Content too short to be valuable")
  else if text.length > 5000 then
    (false, some "Content too long")
  else (true, none)

/-! ## Ledger, tools and the loop's execute block -/

/-- One ledger entry: the dict appended to `deps.action_history`.
Optional keys absent from a given dict are `none`. -/
structure ActionRecord where
  action : String
  success : Bool
  post_id : Option String := none
  handle : Option String := none
  agent : Option String := none
  error : Option String := none
  id : Option String := none
  title : Option String := none
  submolt : Option String := none
  content : Option String := none
deriving DecidableEq

/-- The five action kinds of the `AgentDecision` `Literal`. -/
inductive ActKind where
  | post | comment | upvote | follow | wait
deriving DecidableEq

/-- The structured model output `AgentDecision` (lines 115-124). -/
structure AgentDecision where
  thinking : String := ""
  action : ActKind
  title : Option String := none
  content : Option String := none
  submolt : Option String := none
  post_id : Option String := none
  agent_handle : Option String := none

/-- One call made to the external Moltbook API. -/
inductive ApiCall where
  | createPost (title content submolt : String)
  | createComment (post_id content : String)
  | upvotePost (post_id : String)
  | followAgent (handle : String)
deriving DecidableEq

/-- The external Moltbook collaborator: each endpoint either succeeds
with a value or fails with an exception message. -/
structure MoltbookApi where
  create_post : String → String → String → Except String String
  create_comment : String → String → Except String Unit
  upvote_post : String → Except String Unit
  follow_agent : String → Except String Unit

/-- Result of one governed attempt: the returned string, the updated
ledger, and the trace of external API calls made. -/
structure StepResult where
  result : String
  history : List ActionRecord
  calls : List ApiCall
deriving DecidableEq

/-- Python `h[-n:]`: the last `n` elements (the whole list if shorter). -/
def lastN (n : Nat) (l : List α) : List α := l.drop (l.length - n)

/-- Python truthiness of an optional string: present and non-empty. -/
def optTruthy : Option String → Bool
  | none => false
  | some s => !s.isEmpty

/-- Render an optional reason the way a Python f-string renders it
(`None` when absent; unreachable on the failure paths that use it). -/
def optStr : Option String → String
  | none => "None"
  | some s => s

/-- The rate-limit check of the `create_post` tool (line 391): at least 2
successful posts among the last 5 ledger entries. -/
def post_rate_limited (h : List ActionRecord) : Bool :=
  2 ≤ ((lastN 5 h).filter fun a => a.action == "post" && a.success).length

/-- The rate-limit check of the `upvote_post` tool (lines 496-497): at
least 5 successful upvotes among the last 10 entries. -/
def upvote_rate_limited (h : List ActionRecord) : Bool :=
  5 ≤ ((lastN 10 h).filter fun a => a.action == "upvote" && a.success).length

/-- The duplicate check of the `upvote_post` tool (lines 500-504): any
record of kind upvote on this post id, anywhere in the history, with no
regard to its success flag. -/
def already_upvoted (h : List ActionRecord) (post_id : String) : Bool :=
  h.any fun a => a.action == "upvote" && a.post_id == some post_id

/-- The rate-limit check of the `follow_agent` tool (lines 530-532): at
least 3 successful follows among the last 10 entries. -/
def follow_rate_limited (h : List ActionRecord) : Bool :=
  3 ≤ ((lastN 10 h).filter fun a => a.action == "follow" && a.success).length

/-- The duplicate check of the `follow_agent` tool (lines 535-539): any
record of kind follow on this handle, anywhere in the history, with no
regard to its success flag. -/
def already_following (h : List ActionRecord) (handle : String) : Bool :=
  h.any fun a => a.action == "follow" && a.handle == some handle

/-- The validation-and-execution part of the `create_post` tool after the
rate-limit gate (lines 395-428). -/
def create_post_validated (api : MoltbookApi) (h : List ActionRecord)
    (title content submolt : String) : StepResult :=
  match validate_output_content title with
  | (false, terr) =>
    ⟨"Error: Title blocked - " ++ optStr terr,
     h ++ [{ action := "post", success := false,
             error := some ("title_" ++ optStr terr) }], []⟩
  | (true, _) =>
    match validate_output_content content with
    | (false, cerr) =>
      ⟨"Error: Content blocked - " ++ optStr cerr,
       h ++ [{ action := "post", success := false,
               error := some ("content_" ++ optStr cerr) }], []⟩
    | (true, _) =>
      let t := sanitize_content title
      let c := sanitize_content content
      match api.create_post t c submolt with
      | .ok pid =>
        ⟨"Post created with ID: " ++ pid,
         h ++ [{ action := "post", success := true, id := some pid,
                 title := some (t.take 50) }],
         [.createPost t c submolt]⟩
      | .error e =>
        ⟨"Error: " ++ e,
         h ++ [{ action := "post", success := false,
                 error := some (e.take 50) }],
         [.createPost t c submolt]⟩

/-- The `create_post` tool (lines 382-428). -/
def create_post (api : MoltbookApi) (h : List ActionRecord)
    (title content submolt : String) : StepResult :=
  if post_rate_limited h then
    ⟨"Error: Rate limited - too many recent posts. Wait before posting again.",
     h, []⟩
  else create_post_validated api h title content submolt

/-- The `upvote_post` tool (lines 492-524). -/
def upvote_post (api : MoltbookApi) (h : List ActionRecord)
    (post_id : String) : StepResult :=
  if upvote_rate_limited h then
    ⟨"Error: Rate limited - too many recent upvotes.", h, []⟩
  else if already_upvoted h post_id then
    ⟨"Error: Already upvoted this post.", h, []⟩
  else
    match api.upvote_post post_id with
    | .ok _ =>
      ⟨"Post upvoted",
       h ++ [{ action := "upvote", success := true,
               post_id := some post_id }],
       [.upvotePost post_id]⟩
    | .error e =>
      ⟨"Error: " ++ e,
       h ++ [{ action := "upvote", success := false,
               post_id := some post_id, error := some (e.take 50) }],
       [.upvotePost post_id]⟩

/-- The `follow_agent` tool (lines 527-559). -/
def follow_agent (api : MoltbookApi) (h : List ActionRecord)
    (handle : String) : StepResult :=
  if follow_rate_limited h then
    ⟨"Error: Rate limited - too many recent follows.", h, []⟩
  else if already_following h handle then
    ⟨"Error: Already following this agent.", h, []⟩
  else
    match api.follow_agent handle with
    | .ok _ =>
      ⟨"Now following " ++ handle,
       h ++ [{ action := "follow", success := true, handle := some handle }],
       [.followAgent handle]⟩
    | .error e =>
      ⟨"Error: " ++ e,
       h ++ [{ action := "follow", success := false, handle := some handle,
               error := some (e.take 50) }],
       [.followAgent handle]⟩

/-- Does the string start with the given characters (case-sensitive)? -/
def startsWithL (needle s : List Char) : Bool := (dropLit false needle s).isSome

/-- Python `sub in s`: substring containment. -/
def containsSub (needle : List Char) : List Char → Bool
  | [] => startsWithL needle []
  | c :: cs => startsWithL needle (c :: cs) || containsSub needle cs

/-- The guard chain of the execute block (lines 623, 656, 678, 690):
which decisions reach an executable branch (Python truthiness on the
optional fields). -/
def executable (d : AgentDecision) : Bool :=
  (d.action == .post && optTruthy d.title && optTruthy d.content) ||
  (d.action == .comment && optTruthy d.post_id && optTruthy d.content) ||
  (d.action == .upvote && optTruthy d.post_id) ||
  (d.action == .follow && optTruthy d.agent_handle)

/-- The execute block of the `run_agent` loop body (lines 622-707): the
decided action is validated (posts and comments) and executed directly
against the API; the final `else` branch is the wait path.  The block
reads no ledger state, so it is factored as a function of the decision
alone, returning the action-result string, the records it appends, and
the API calls it makes; `run_agent_cycle` below does the appending. -/
def run_agent_exec (api : MoltbookApi) (d : AgentDecision) :
    String × List ActionRecord × List ApiCall :=
  if d.action == .post && optTruthy d.title && optTruthy d.content then
    let title := d.title.getD ""
    let content := d.content.getD ""
    let chosen_submolt := if optTruthy d.submolt then d.submolt.getD "" else "general"
    match validate_output_content title with
    | (false, terr) =>
      ⟨"Error: Title blocked - " ++ optStr terr,
       [{ action := "post", success := false, error := terr }], []⟩
    | (true, _) =>
      match validate_output_content content with
      | (false, cerr) =>
        ⟨"Error: Content blocked - " ++ optStr cerr,
         [{ action := "post", success := false, error := cerr }], []⟩
      | (true, _) =>
        let res : String × List ActionRecord :=
          match api.create_post (sanitize_content title)
              (sanitize_content content) chosen_submolt with
          | .ok pid =>
            ("Post created in m/" ++ chosen_submolt ++ ": " ++ pid,
             [{ action := "post", success := true, post_id := some pid,
                submolt := some chosen_submolt }])
          | .error e =>
            ("Error creating post: " ++ e,
             [{ action := "post", success := false,
                error := some (e.take 50) }])
        (res.1, res.2,
         [.createPost (sanitize_content title) (sanitize_content content)
           chosen_submolt])
  else if d.action == .comment && optTruthy d.post_id && optTruthy d.content
  then
    let pid := d.post_id.getD ""
    let content := d.content.getD ""
    match validate_output_content content with
    | (false, cerr) =>
      ⟨"Error: Content blocked - " ++ optStr cerr,
       [{ action := "comment", success := false, error := cerr }], []⟩
    | (true, _) =>
      let res : String × List ActionRecord :=
        match api.create_comment pid (sanitize_content content) with
        | .ok _ =>
          ("Comment added",
           [{ action := "comment", success := true, post_id := some pid }])
        | .error e =>
          (if containsSub "401".data e.data ||
              containsSub "Authentication required".data e.data then
             "Error: Moltbook comments API is currently unavailable (known platform issue)"
           else "Error: " ++ e,
           [{ action := "comment", success := false,
              error := some (e.take 50) }])
      (res.1, res.2, [.createComment pid (sanitize_content content)])
  else if d.action == .upvote && optTruthy d.post_id then
    let pid := d.post_id.getD ""
    let res : String × List ActionRecord :=
      match api.upvote_post pid with
      | .ok _ =>
        ("Upvoted",
         [{ action := "upvote", success := true, post_id := some pid }])
      | .error e =>
        ("Error: " ++ e,
         [{ action := "upvote", success := false,
            error := some (e.take 50) }])
    (res.1, res.2, [.upvotePost pid])
  else if d.action == .follow && optTruthy d.agent_handle then
    let hd := d.agent_handle.getD ""
    let res : String × List ActionRecord :=
      match api.follow_agent hd with
      | .ok _ =>
        ("Followed " ++ hd,
         [{ action := "follow", success := true, agent := some hd }])
      | .error e =>
        ("Error: " ++ e,
         [{ action := "follow", success := false,
            error := some (e.take 50) }])
    (res.1, res.2, [.followAgent hd])
  else
    ("Waiting", [], [])

/-- The loop body's effect on the ledger: run the execute block and
append its records. -/
def run_agent_cycle (api : MoltbookApi) (d : AgentDecision)
    (h : List ActionRecord) : StepResult :=
  let e := run_agent_exec api d
  ⟨e.1, h ++ e.2.1, e.2.2⟩

/-- The bounded iteration of `run_agent` (lines 579-748) restricted to
its ledger effect: run `n` cycles, each feeding the updated ledger to the
next; `model i` is the Decision the model collaborator produces in cycle
`i`. -/
def run_agent_loop (api : MoltbookApi) (model : Nat → AgentDecision) :
    Nat → List ActionRecord → List ActionRecord
  | 0, h => h
  | n + 1, h => run_agent_loop api model n (run_agent_cycle api (model n) h).history

/-- The per-kind tally of the run summary (lines 732-734). -/
def actions_by_type (h : List ActionRecord) (kind : String) : Nat :=
  (h.filter fun a => a.action == kind).length

/-- An API collaborator on which every endpoint succeeds. -/
def okApi : MoltbookApi :=
  ⟨fun _ _ _ => .ok "p1", fun _ _ => .ok (), fun _ => .ok (),
   fun _ => .ok ()⟩

/-- The always-wait Decision. -/
def waitDecision : AgentDecision := { action := .wait }

/-! ## Infrastructure for reasoning about the matchers

`wfPatB` captures the structural facts about each component that the
metatheory uses: components consume at least one character (apart from
the optional quote), never match a bracket, and alternation lists have
no word that is a (case-folded) strict prefix of another. -/

/-- Case-folding used by `chEq` when the pattern is case-insensitive. -/
def low (ci : Bool) (c : Char) : Char := if ci then c.toLower else c

/-- Characterwise `chEq`-equality of two words (same length). -/
def litEqvB (ci : Bool) : List Char → List Char → Bool
  | [], [] => true
  | x :: u, c :: v => chEq ci x c && litEqvB ci u v
  | _, _ => false

/-- A class never containing the bracket characters of `[REDACTED]`. -/
def charOkB (p : Char → Bool) : Bool := !p bra && !p ket

/-- A well-formed literal word: non-empty, never matching a bracket. -/
def wordOkB (ci : Bool) (w : List Char) : Bool :=
  !w.isEmpty && w.all fun x => !chEq ci x bra && !chEq ci x ket

/-- No word of the alternation is a `chEq`-strict-prefix of another. -/
def noStrictPfxB (ci : Bool) (ws : List (List Char)) : Bool :=
  ws.all fun w => ws.all fun w2 =>
    !(decide (w.length < w2.length) && litEqvB ci w (w2.take w.length))

/-- Well-formedness of one component. -/
def wfPatB : Pat → Bool
  | .lit ci w => wordOkB ci w
  | .alts ci ws =>
    !ws.isEmpty && ws.all (wordOkB ci) && noStrictPfxB ci ws
  | .exactK p k => decide (0 < k) && charOkB p
  | .atLeastK p k => decide (0 < k) && charOkB p
  | .optC p => charOkB p

/-- Is the component the optional-character one? -/
def isOptC : Pat → Bool
  | .optC _ => true
  | _ => false

/-- Well-formedness of a whole pattern: every component well formed and
at least one mandatory (consuming) component. -/
def wfSeqB (ps : List Pat) : Bool :=
  ps.all wfPatB && ps.any fun p => !isOptC p

/-- `M` never matches any suffix of `s`. -/
def CleanM (M : List Char → Option (List Char)) (s : List Char) : Prop :=
  ∀ t, t <:+ s → M t = none

/-- Every match of `M` consumes at least one character. -/
def ConsumesM (M : List Char → Option (List Char)) : Prop :=
  ∀ s r, M s = some r → r.length < s.length

/-- The span of every match of `M` is free of the bracket characters. -/
def BrFreeM (M : List Char → Option (List Char)) : Prop :=
  ∀ s r, M s = some r → ∃ sp, s = sp ++ r ∧ ∀ c ∈ sp, c ≠ bra ∧ c ≠ ket

/-- If a match lies inside the prefix `a`, replacing what follows `a`
preserves matchability. -/
def StabM (M : List Char → Option (List Char)) : Prop :=
  ∀ a b b' r, M (a ++ b) = some r → b.length ≤ r.length →
    (M (a ++ b')).isSome

/-- `M` never matches starting inside the letters of the redaction
marker (the closing bracket follows them). -/
def RedSafeM (M : List Char → Option (List Char)) : Prop :=
  ∀ w rest, w <:+ redactedCore → M (w ++ ket :: rest) = none

/-- The sanitization pipeline on character lists: the eight `re.sub`
passes of `sanitize_content`, in source order. -/
def sanitizeL (s : List Char) : List Char :=
  substAux pat8 (substAux pat7 (substAux pat6 (substAux pat5
    (substAux pat4 (substAux pat3 (substAux pat2 (substAux pat1 s)))))))

/-! ## Concrete inputs used by witnesses and counterexamples -/

/-- A successful post record. -/
def recPostOk : ActionRecord := { action := "post", success := true }

/-- A successful upvote record on the given post. -/
def recUpOk (pid : String) : ActionRecord :=
  { action := "upvote", success := true, post_id := some pid }

/-- A failed upvote record on the given post. -/
def recUpFail (pid : String) : ActionRecord :=
  { action := "upvote", success := false, post_id := some pid }

/-- A failed follow record on the given handle. -/
def recFollowFail (hd : String) : ActionRecord :=
  { action := "follow", success := false, handle := some hd }

/-- A history whose last 5 entries hold exactly 2 successful posts. -/
def hTwoPosts : List ActionRecord := [recPostOk, recPostOk]

/-- A history whose last 5 entries hold exactly 1 successful post. -/
def hOnePost : List ActionRecord := [recPostOk]

/-- Five successful upvotes (P1 among them) in the last 10 entries. -/
def hFiveUpvotes : List ActionRecord :=
  [recUpOk "P1", recUpOk "P2", recUpOk "P3", recUpOk "P4", recUpOk "P5"]

/-- A valid post Decision (title and content pass validation). -/
def dPost : AgentDecision :=
  { action := .post, title := some "Market structure notes",
    content := some "Liquidity depth matters more than headlines." }

/-- A post Decision with no content field: mismatched for its kind. -/
def dPostNoContent : AgentDecision :=
  { action := .post, title := some "Market structure notes" }

/-- 64 uppercase hexadecimal characters. -/
def hexUpper64 : String := String.mk (List.replicate 64 'A')

/-- 64 lowercase hexadecimal characters. -/
def hexLower64 : List Char := List.replicate 64 'a'

/-! ## Theorems for the ledger, governor and loop claims -/

/-- The execute block appends exactly one record on an executable branch
and none otherwise (helper). -/
theorem exec_records_length (api : MoltbookApi) (d : AgentDecision) :
    (run_agent_exec api d).2.1.length = if executable d then 1 else 0 := by
  by_cases h1 : (d.action == .post && optTruthy d.title && optTruthy d.content) = true
  · rcases hvt : validate_output_content (d.title.getD "") with ⟨bt, et⟩
    rcases hvc : validate_output_content (d.content.getD "") with ⟨bc, ec⟩
    cases bt <;> cases bc
    all_goals simp [run_agent_exec, executable, h1, hvt, hvc]
    all_goals
      rcases api.create_post (sanitize_content (d.title.getD ""))
        (sanitize_content (d.content.getD ""))
        (if optTruthy d.submolt then d.submolt.getD "" else "general")
        with pid | e
    all_goals simp
  · by_cases h2 : (d.action == .comment && optTruthy d.post_id && optTruthy d.content) = true
    · rcases hvc : validate_output_content (d.content.getD "") with ⟨bc, ec⟩
      cases bc
      all_goals simp [run_agent_exec, executable, h1, h2, hvc]
      all_goals
        rcases api.create_comment (d.post_id.getD "")
          (sanitize_content (d.content.getD "")) with u | e
      all_goals simp
    · by_cases h3 : (d.action == .upvote && optTruthy d.post_id) = true
      · simp [run_agent_exec, executable, h1, h2, h3]
        rcases api.upvote_post (d.post_id.getD "") with u | e
        all_goals simp
      · by_cases h4 : (d.action == .follow && optTruthy d.agent_handle) = true
        · simp [run_agent_exec, executable, h1, h2, h3, h4]
          rcases api.follow_agent (d.agent_handle.getD "") with u | e
          all_goals simp
        · simp [run_agent_exec, executable, h1, h2, h3, h4]


/-- C4: for a post attempt via the `create_post` tool, exactly 2 successful
posts among the last 5 ledger entries block the attempt as rate limited
(unchanged ledger, no API call), while exactly 1 successful post lets the
attempt proceed past the rate gate to validation and execution. -/
theorem c4_post_rate_window (api : MoltbookApi) (h : List ActionRecord)
    (t c s : String) :
    (((lastN 5 h).filter fun a => a.action == "post" && a.success).length = 2 →
      create_post api h t c s =
        ⟨"Error: Rate limited - too many recent posts. Wait before posting again.",
         h, []⟩) ∧
    (((lastN 5 h).filter fun a => a.action == "post" && a.success).length = 1 →
      create_post api h t c s = create_post_validated api h t c s) := by
  constructor <;> intro hc <;> simp [create_post, post_rate_limited, hc]

theorem c4_witness :
    create_post okApi hTwoPosts "t" "c" "general" =
      ⟨"Error: Rate limited - too many recent posts. Wait before posting again.",
       hTwoPosts, []⟩ ∧
    create_post okApi hOnePost "t" "c" "general" =
      create_post_validated okApi hOnePost "t" "c" "general" :=
  ⟨(c4_post_rate_window okApi hTwoPosts "t" "c" "general").1 (by decide),
   (c4_post_rate_window okApi hOnePost "t" "c" "general").2 (by decide)⟩

/-- C1, counterexample: with a ledger the governor rate-blocks (2 successful
posts in the last 5 entries) and a valid post Decision, the loop still calls
the external create-post API: the loop applies no governor check before
executing, contradicting the claim as stated. -/
theorem c1_counterexample :
    post_rate_limited hTwoPosts = true ∧
    (run_agent_cycle okApi dPost hTwoPosts).calls =
      [ApiCall.createPost "Market structure notes"
        "Liquidity depth matters more than headlines." "general"] := by
  exact ⟨by decide, by decide⟩

/-- C1, amended: in every cycle the loop validates title and content for
`post` and content for `comment` before executing, and for `wait` does
nothing; but it checks no rate-limit or duplicate governor for any action
kind — its API calls and result are independent of the ledger, and
`upvote`/`follow` call the external API unconditionally.  (Rate-limit and
duplicate governance exists only inside the tool functions.) -/
theorem c1_amended_loop_governance (api : MoltbookApi) (d : AgentDecision)
    (h h' : List ActionRecord) :
    ((run_agent_cycle api d h).calls = (run_agent_cycle api d h').calls ∧
     (run_agent_cycle api d h).result = (run_agent_cycle api d h').result) ∧
    (∀ t c, d.action = .post → d.title = some t → d.content = some c →
      t.isEmpty = false → c.isEmpty = false →
      (((validate_output_content t).1 = false ∨
        (validate_output_content c).1 = false) →
        (run_agent_cycle api d h).calls = []) ∧
      ((validate_output_content t).1 = true →
       (validate_output_content c).1 = true →
        (run_agent_cycle api d h).calls =
          [ApiCall.createPost (sanitize_content t) (sanitize_content c)
            (if optTruthy d.submolt then d.submolt.getD "" else "general")])) ∧
    (∀ pid c, d.action = .comment → d.post_id = some pid →
      d.content = some c → pid.isEmpty = false → c.isEmpty = false →
      ((validate_output_content c).1 = false →
        (run_agent_cycle api d h).calls = []) ∧
      ((validate_output_content c).1 = true →
        (run_agent_cycle api d h).calls =
          [ApiCall.createComment pid (sanitize_content c)])) ∧
    (∀ pid, d.action = .upvote → d.post_id = some pid → pid.isEmpty = false →
      (run_agent_cycle api d h).calls = [ApiCall.upvotePost pid]) ∧
    (∀ hd, d.action = .follow → d.agent_handle = some hd →
      hd.isEmpty = false →
      (run_agent_cycle api d h).calls = [ApiCall.followAgent hd]) ∧
    (d.action = .wait → run_agent_cycle api d h = ⟨"Waiting", h, []⟩) := by
  refine ⟨⟨rfl, rfl⟩, ?_, ?_, ?_, ?_, ?_⟩
  · intro t c ha ht hc hte hce
    rcases hvt : validate_output_content t with ⟨bt, et⟩
    rcases hvc : validate_output_content c with ⟨bc, ec⟩
    constructor
    · intro hf
      rcases hf with hf | hf
      · simp at hf; subst hf
        simp [run_agent_cycle, run_agent_exec, ha, ht, hc, optTruthy, hte,
          hce, hvt]
      · simp at hf; subst hf
        cases bt <;>
          simp [run_agent_cycle, run_agent_exec, ha, ht, hc, optTruthy, hte,
            hce, hvt, hvc]
    · intro h1 h2
      simp at h1 h2; subst h1; subst h2
      simp [run_agent_cycle, run_agent_exec, ha, ht, hc, optTruthy, hte, hce,
        hvt, hvc]
  · intro pid c ha hp hc hpe hce
    rcases hvc : validate_output_content c with ⟨bc, ec⟩
    constructor
    · intro hf
      simp at hf
      subst hf
      simp [run_agent_cycle, run_agent_exec, ha, hp, hc, optTruthy, hpe, hce,
        hvc]
    · intro h1
      simp at h1
      subst h1
      simp [run_agent_cycle, run_agent_exec, ha, hp, hc, optTruthy, hpe, hce,
        hvc]
  · intro pid ha hp hpe
    simp [run_agent_cycle, run_agent_exec, ha, hp, optTruthy, hpe]
  · intro hd ha hh hhe
    simp [run_agent_cycle, run_agent_exec, ha, hh, optTruthy, hhe]
  · intro ha
    simp [run_agent_cycle, run_agent_exec, ha]

theorem c1_witness :
    (run_agent_cycle okApi { action := .upvote, post_id := some "P9" }
      hTwoPosts).calls = [ApiCall.upvotePost "P9"] :=
  (c1_amended_loop_governance okApi
    { action := .upvote, post_id := some "P9" } hTwoPosts hTwoPosts).2.2.2.1
    "P9" rfl rfl (by decide)

/-- C2, counterexample: a run with `max_iterations = 3` and a model that
always decides `wait` terminates with an empty ledger — no ActionRecord is
appended on a wait cycle — so the summary reports 0 waits, not 3. -/
theorem c2_counterexample :
    run_agent_loop okApi (fun _ => waitDecision) 3 [] = [] ∧
    actions_by_type (run_agent_loop okApi (fun _ => waitDecision) 3 [])
      "wait" ≠ 3 := by
  exact ⟨by rfl, by decide⟩

/-- C2, amended: each cycle appends exactly one ActionRecord when the
Decision reaches an executable branch and none otherwise; in particular a
`wait` cycle appends nothing, so the 3-iteration always-wait run ends with
an empty ledger and a summary of 0 waits. -/
theorem c2_amended_record_per_cycle (api : MoltbookApi) (d : AgentDecision)
    (h : List ActionRecord) :
    (run_agent_cycle api d h).history = h ++ (run_agent_exec api d).2.1 ∧
    (run_agent_exec api d).2.1.length = (if executable d then 1 else 0) ∧
    run_agent_loop okApi (fun _ => waitDecision) 3 [] = [] ∧
    actions_by_type (run_agent_loop okApi (fun _ => waitDecision) 3 [])
      "wait" = 0 :=
  ⟨rfl, exec_records_length api d, rfl, rfl⟩

/-- C3, counterexample: when the governor rate-blocks a post attempt, the
block is returned as a reason string with no exception, but no failure
ActionRecord is appended — the ledger is returned unchanged — contradicting
the claim as stated. -/
theorem c3_counterexample :
    post_rate_limited hTwoPosts = true ∧
    create_post okApi hTwoPosts "Valid analytical title"
      "A reasonably long valid content body." "general" =
      ⟨"Error: Rate limited - too many recent posts. Wait before posting again.",
       hTwoPosts, []⟩ := by
  exact ⟨by decide, by rfl⟩

/-- C3, amended: whenever the governor blocks a proposed action (rate
limited or duplicate target), no exception is raised: the block is returned
as a declarative reason string, no API call is made, and the cycle
proceeds; however no ActionRecord is appended for governor blocks — the
ledger is returned unchanged. -/
theorem c3_amended_governor_block_silent (api : MoltbookApi)
    (h : List ActionRecord) (t c s pid hd : String) :
    (post_rate_limited h = true →
      create_post api h t c s =
        ⟨"Error: Rate limited - too many recent posts. Wait before posting again.",
         h, []⟩) ∧
    (upvote_rate_limited h = true →
      upvote_post api h pid =
        ⟨"Error: Rate limited - too many recent upvotes.", h, []⟩) ∧
    (upvote_rate_limited h = false → already_upvoted h pid = true →
      upvote_post api h pid = ⟨"Error: Already upvoted this post.", h, []⟩) ∧
    (follow_rate_limited h = true →
      follow_agent api h hd =
        ⟨"Error: Rate limited - too many recent follows.", h, []⟩) ∧
    (follow_rate_limited h = false → already_following h hd = true →
      follow_agent api h hd =
        ⟨"Error: Already following this agent.", h, []⟩) := by
  refine ⟨?_, ?_, ?_, ?_, ?_⟩
  · intro hr; simp [create_post, hr]
  · intro hr; simp [upvote_post, hr]
  · intro hr hdup; simp [upvote_post, hr, hdup]
  · intro hr; simp [follow_agent, hr]
  · intro hr hdup; simp [follow_agent, hr, hdup]

theorem c3_witness :
    create_post okApi hTwoPosts "t" "c" "general" =
      ⟨"Error: Rate limited - too many recent posts. Wait before posting again.",
       hTwoPosts, []⟩ ∧
    upvote_post okApi hFiveUpvotes "P9" =
      ⟨"Error: Rate limited - too many recent upvotes.", hFiveUpvotes, []⟩ ∧
    upvote_post okApi [recUpFail "P1"] "P1" =
      ⟨"Error: Already upvoted this post.", [recUpFail "P1"], []⟩ ∧
    follow_agent okApi [recFollowFail "bob"] "bob" =
      ⟨"Error: Already following this agent.", [recFollowFail "bob"], []⟩ :=
  ⟨(c3_amended_governor_block_silent okApi hTwoPosts "t" "c" "general" "p"
      "b").1 (by decide),
   (c3_amended_governor_block_silent okApi hFiveUpvotes "t" "c" "general"
      "P9" "b").2.1 (by decide),
   (c3_amended_governor_block_silent okApi [recUpFail "P1"] "t" "c" "general"
      "P1" "b").2.2.1 (by decide) (by decide),
   (c3_amended_governor_block_silent okApi [recFollowFail "bob"] "t" "c"
      "general" "p" "bob").2.2.2.2 (by decide) (by decide)⟩

/-- C5, counterexample: a ledger holding a successful upvote on `P1` but
also 5 successful upvotes in the last 10 entries blocks the second upvote
on `P1` with the rate-limit reason, not the already-upvoted reason, so the
claim as stated fails. -/
theorem c5_counterexample :
    (∃ r ∈ hFiveUpvotes, r.action = "upvote" ∧ r.success = true ∧
      r.post_id = some "P1") ∧
    (upvote_post okApi hFiveUpvotes "P1").result ≠
      "Error: Already upvoted this post." ∧
    (upvote_post okApi hFiveUpvotes "P1").result =
      "Error: Rate limited - too many recent upvotes." := by
  exact ⟨by decide, by decide, by rfl⟩

/-- C5, amended: if the ledger contains a successful upvote record for a
post id and the upvote rate limit does not fire, a later upvote attempt on
that id is blocked with the already-upvoted reason regardless of the
record position — the duplicate check scans the entire history. -/
theorem c5_amended_duplicate_upvote (api : MoltbookApi)
    (h : List ActionRecord) (pid : String)
    (hmem : ∃ r ∈ h, r.action = "upvote" ∧ r.success = true ∧
      r.post_id = some pid)
    (hrate : upvote_rate_limited h = false) :
    upvote_post api h pid = ⟨"Error: Already upvoted this post.", h, []⟩ := by
  have hdup : already_upvoted h pid = true := by
    rcases hmem with ⟨r, hr, ha, _, hp⟩
    simp [already_upvoted, List.any_eq_true]
    exact ⟨r, hr, by simp [ha, hp]⟩
  simp [upvote_post, hrate, hdup]

theorem c5_witness :
    upvote_post okApi [recUpOk "P1"] "P1" =
      ⟨"Error: Already upvoted this post.", [recUpOk "P1"], []⟩ :=
  c5_amended_duplicate_upvote okApi [recUpOk "P1"] "P1" (by decide)
    (by decide)

/-- C9: the duplicate checks of `upvote_post` and `follow_agent` ignore the
success flag: any prior upvote record for a post id — also a failed one —
blocks every later upvote attempt on it (no API call, unchanged ledger),
and likewise any prior follow record for a handle blocks later follows. -/
theorem c9_duplicate_ignores_success (api : MoltbookApi)
    (h : List ActionRecord) (pid hd : String) :
    ((∃ r ∈ h, r.action = "upvote" ∧ r.post_id = some pid) →
      (upvote_post api h pid).history = h ∧
      (upvote_post api h pid).calls = [] ∧
      ((upvote_post api h pid).result =
        "Error: Rate limited - too many recent upvotes." ∨
       (upvote_post api h pid).result =
        "Error: Already upvoted this post.")) ∧
    ((∃ r ∈ h, r.action = "follow" ∧ r.handle = some hd) →
      (follow_agent api h hd).history = h ∧
      (follow_agent api h hd).calls = [] ∧
      ((follow_agent api h hd).result =
        "Error: Rate limited - too many recent follows." ∨
       (follow_agent api h hd).result =
        "Error: Already following this agent.")) := by
  constructor
  · intro hmem
    have hdup : already_upvoted h pid = true := by
      rcases hmem with ⟨r, hr, ha, hp⟩
      simp [already_upvoted, List.any_eq_true]
      exact ⟨r, hr, by simp [ha, hp]⟩
    by_cases hr : upvote_rate_limited h = true
    · simp [upvote_post, hr]
    · simp at hr
      simp [upvote_post, hr, hdup]
  · intro hmem
    have hdup : already_following h hd = true := by
      rcases hmem with ⟨r, hr, ha, hp⟩
      simp [already_following, List.any_eq_true]
      exact ⟨r, hr, by simp [ha, hp]⟩
    by_cases hr : follow_rate_limited h = true
    · simp [follow_agent, hr]
    · simp at hr
      simp [follow_agent, hr, hdup]

theorem c9_witness :
    (upvote_post okApi [recUpFail "P1", recFollowFail "bob"] "P1").calls
      = [] ∧
    (follow_agent okApi [recUpFail "P1", recFollowFail "bob"] "bob").calls
      = [] :=
  ⟨((c9_duplicate_ignores_success okApi [recUpFail "P1", recFollowFail "bob"]
      "P1" "bob").1 (by decide)).2.1,
   ((c9_duplicate_ignores_success okApi [recUpFail "P1", recFollowFail "bob"]
      "P1" "bob").2 (by decide)).2.1⟩

/-- C7: a Decision whose optional fields do not match its action kind (any
decision failing the executable guard, e.g. `post` with missing content)
is treated by the loop exactly like `wait`: no external call, no record,
no error, and the same cycle outcome as the wait Decision. -/
theorem c7_mismatched_decision_waits (api : MoltbookApi) (d : AgentDecision)
    (h : List ActionRecord) (hx : executable d = false) :
    run_agent_cycle api d h = ⟨"Waiting", h, []⟩ ∧
    run_agent_cycle api d h = run_agent_cycle api waitDecision h := by
  simp only [executable, Bool.or_eq_false_iff] at hx
  obtain ⟨⟨⟨h1, h2⟩, h3⟩, h4⟩ := hx
  have he : run_agent_exec api d = ("Waiting", [], []) := by
    unfold run_agent_exec
    simp only [h1, h2, h3, h4]
    simp
  have hw : run_agent_exec api waitDecision = ("Waiting", [], []) := rfl
  constructor
  · simp [run_agent_cycle, he]
  · simp [run_agent_cycle, he, hw]

theorem c7_witness :
    run_agent_cycle okApi dPostNoContent [] = ⟨"Waiting", [], []⟩ :=
  (c7_mismatched_decision_waits okApi dPostNoContent [] (by decide)).1


/-! ## Metatheory of the secret-pattern matchers

The lemmas below establish, for each of the eight secret patterns, that
a match consumes at least one character, its span contains no bracket
character, a match lying inside a prefix survives replacement of the
continuation, and no match can start inside the redaction marker.  From
these the master lemma `clean_subst_fuel` shows a `re.sub` pass leaves
no match anywhere, which yields idempotence of `sanitize_content` (C8),
removal of lowercase 64-hex substrings (C6) and identity on clean text
(C10). -/


theorem litEqvB_length {ci : Bool} : ∀ {u v : List Char},
    litEqvB ci u v = true → u.length = v.length := by
  intro u
  induction u with
  | nil => intro v h; cases v with
    | nil => rfl
    | cons c v => simp [litEqvB] at h
  | cons x u ih =>
    intro v h
    cases v with
    | nil => simp [litEqvB] at h
    | cons c v =>
      simp only [litEqvB, Bool.and_eq_true] at h
      simp [ih h.2]

theorem litEqvB_map {ci : Bool} : ∀ {u v : List Char},
    litEqvB ci u v = true ↔ u.map (low ci) = v.map (low ci) := by
  intro u
  induction u with
  | nil => intro v; cases v with
    | nil => simp [litEqvB]
    | cons c v => simp [litEqvB]
  | cons x u ih =>
    intro v
    cases v with
    | nil => simp [litEqvB]
    | cons c v =>
      simp only [litEqvB, Bool.and_eq_true, List.map_cons, List.cons.injEq]
      constructor
      · rintro ⟨h1, h2⟩
        refine ⟨?_, ih.1 h2⟩
        cases ci <;> simpa [chEq, low] using h1
      · rintro ⟨h1, h2⟩
        refine ⟨?_, ih.2 h2⟩
        cases ci <;> simp [chEq, low] at h1 ⊢ <;> simp [h1]

theorem dropLit_sub {ci : Bool} : ∀ {w s r : List Char},
    dropLit ci w s = some r → ∃ sp, s = sp ++ r ∧ litEqvB ci w sp = true := by
  intro w
  induction w with
  | nil =>
    intro s r h
    simp [dropLit] at h
    exact ⟨[], by simp [h], rfl⟩
  | cons x w ih =>
    intro s r h
    cases s with
    | nil => simp [dropLit] at h
    | cons c s =>
      simp only [dropLit] at h
      by_cases hx : chEq ci x c = true
      · rw [if_pos hx] at h
        obtain ⟨sp, rfl, he⟩ := ih h
        exact ⟨c :: sp, rfl, by simp [litEqvB, hx, he]⟩
      · rw [if_neg hx] at h; cases h

theorem dropLit_of_eqv {ci : Bool} : ∀ {w sp : List Char} (t : List Char),
    litEqvB ci w sp = true → dropLit ci w (sp ++ t) = some t := by
  intro w
  induction w with
  | nil =>
    intro sp t h
    cases sp with
    | nil => simp [dropLit]
    | cons c sp => simp [litEqvB] at h
  | cons x w ih =>
    intro sp t h
    cases sp with
    | nil => simp [litEqvB] at h
    | cons c sp =>
      simp only [litEqvB, Bool.and_eq_true] at h
      simp [dropLit, h.1, ih t h.2]

theorem dropLit_diverge {ci : Bool} : ∀ {w a b : List Char},
    dropLit ci w (a ++ b) = none →
    (∀ b2, dropLit ci w (a ++ b2) = none) ∨
    (a.length < w.length ∧ litEqvB ci (w.take a.length) a = true) := by
  intro w
  induction w with
  | nil => intro a b h; simp [dropLit] at h
  | cons x w ih =>
    intro a b h
    cases a with
    | nil =>
      right
      simp [litEqvB]
    | cons c a =>
      simp only [List.cons_append, dropLit] at h
      by_cases hx : chEq ci x c = true
      · rw [if_pos hx] at h
        rcases ih h with h' | ⟨hlt, he⟩
        · left
          intro b2
          simp [dropLit, hx, h' b2]
        · right
          constructor
          · simpa using Nat.succ_lt_succ hlt
          · simp [List.take, litEqvB, hx, he]
      · left
        intro b2
        simp [dropLit, hx]

theorem dropExact_sub {p : Char → Bool} : ∀ {k : Nat} {s r : List Char},
    dropExact p k s = some r →
    ∃ sp, s = sp ++ r ∧ sp.length = k ∧ sp.all p = true := by
  intro k
  induction k with
  | zero =>
    intro s r h
    simp [dropExact] at h
    exact ⟨[], by simp [h], rfl, rfl⟩
  | succ k ih =>
    intro s r h
    cases s with
    | nil => simp [dropExact] at h
    | cons c s =>
      simp only [dropExact] at h
      by_cases hc : p c = true
      · rw [if_pos hc] at h
        obtain ⟨sp, rfl, hl, ha⟩ := ih h
        exact ⟨c :: sp, rfl, by simp [hl], by simp [hc, ha]⟩
      · rw [if_neg hc] at h; cases h

theorem dropExact_of_all {p : Char → Bool} : ∀ {sp : List Char} (t : List Char),
    sp.all p = true → dropExact p sp.length (sp ++ t) = some t := by
  intro sp
  induction sp with
  | nil => intro t _; simp [dropExact]
  | cons c sp ih =>
    intro t h
    simp only [List.all_cons, Bool.and_eq_true] at h
    simp [dropExact, h.1, ih t h.2]

theorem dropWhile_eq_drop (p : Char → Bool) :
    ∀ s : List Char, s.dropWhile p = s.drop (s.takeWhile p).length := by
  intro s
  induction s with
  | nil => rfl
  | cons c s ih =>
    by_cases hc : p c = true
    · simp [List.dropWhile_cons, List.takeWhile_cons, hc, ih]
    · simp [List.dropWhile_cons, List.takeWhile_cons, hc]

theorem takeWhile_append_not {p : Char → Bool} : ∀ {a : List Char}
    (b : List Char), a.all p = false →
    (a ++ b).takeWhile p = a.takeWhile p ∧
    (a ++ b).dropWhile p = a.dropWhile p ++ b := by
  intro a
  induction a with
  | nil => intro b h; simp at h
  | cons c a ih =>
    intro b h
    simp only [List.all_cons, Bool.and_eq_false_iff] at h
    by_cases hc : p c = true
    · rcases h with h | h
      · rw [hc] at h; cases h
      · obtain ⟨h1, h2⟩ := ih b h
        simp [List.takeWhile_cons, List.dropWhile_cons, hc, h1, h2]
    · simp only [Bool.not_eq_true] at hc
      simp [List.takeWhile_cons, List.dropWhile_cons, hc]

theorem takeWhile_append_all {p : Char → Bool} : ∀ {a : List Char}
    (b : List Char), a.all p = true →
    (a ++ b).takeWhile p = a ++ b.takeWhile p ∧
    (a ++ b).dropWhile p = b.dropWhile p := by
  intro a
  induction a with
  | nil => intro b h; simp
  | cons c a ih =>
    intro b h
    simp only [List.all_cons, Bool.and_eq_true] at h
    obtain ⟨h1, h2⟩ := ih b h.2
    simp [List.takeWhile_cons, List.dropWhile_cons, h.1, h1, h2]

theorem dropWhile_length_le (p : Char → Bool) :
    ∀ s : List Char, (s.dropWhile p).length ≤ s.length := by
  intro s
  induction s with
  | nil => simp
  | cons c s ih =>
    by_cases hc : p c = true
    · rw [List.dropWhile_cons, if_pos hc]
      exact Nat.le_succ_of_le ih
    · rw [List.dropWhile_cons, if_neg hc]

theorem dropWhile_length_eq {p : Char → Bool} {b : List Char}
    (h : (b.dropWhile p).length = b.length) : b.takeWhile p = [] := by
  cases hb : b with
  | nil => rfl
  | cons c s =>
    by_cases hc : p c = true
    · subst hb
      rw [List.dropWhile_cons, if_pos hc] at h
      have := dropWhile_length_le p s
      simp at h
      omega
    · subst hb
      simp [List.takeWhile_cons, hc]



theorem dropAlts_sub {ci : Bool} : ∀ {ws : List (List Char)} {s t : List Char},
    dropAlts ci ws s = some t →
    ∃ w ∈ ws, ∃ sp, s = sp ++ t ∧ litEqvB ci w sp = true := by
  intro ws
  induction ws with
  | nil => intro s t h; simp [dropAlts] at h
  | cons w ws ih =>
    intro s t h
    simp only [dropAlts] at h
    cases hL : dropLit ci w s with
    | some t' =>
      rw [hL] at h
      obtain rfl : t' = t := by simpa using h
      obtain ⟨sp, rfl, he⟩ := dropLit_sub hL
      exact ⟨w, by simp, sp, rfl, he⟩
    | none =>
      rw [hL] at h
      obtain ⟨w', hw', sp, rfl, he⟩ := ih h
      exact ⟨w', by simp [hw'], sp, rfl, he⟩

theorem dropAtLeast_inv {p : Char → Bool} {k : Nat} {s t : List Char}
    (h : dropAtLeast p k s = some t) :
    t = s.dropWhile p ∧ k ≤ (s.takeWhile p).length := by
  unfold dropAtLeast at h
  by_cases hk : k ≤ (s.takeWhile p).length
  · rw [if_pos hk] at h
    exact ⟨by simpa using h.symm, hk⟩
  · rw [if_neg hk] at h; cases h

theorem litEqvB_nobr {ci : Bool} : ∀ {w sp : List Char},
    litEqvB ci w sp = true →
    (w.all fun x => !chEq ci x bra && !chEq ci x ket) = true →
    ∀ c ∈ sp, c ≠ bra ∧ c ≠ ket := by
  intro w
  induction w with
  | nil =>
    intro sp he _ c hc
    cases sp with
    | nil => cases hc
    | cons a sp => simp [litEqvB] at he
  | cons x w ih =>
    intro sp he hok c hc
    cases sp with
    | nil => simp [litEqvB] at he
    | cons a sp =>
      simp only [litEqvB, Bool.and_eq_true] at he
      simp only [List.all_cons, Bool.and_eq_true] at hok
      rcases List.mem_cons.1 hc with rfl | hc
      · obtain ⟨h1, _⟩ := hok
        simp only [Bool.and_eq_true, Bool.not_eq_true'] at h1
        constructor
        · intro hcb; rw [hcb] at he; rw [he.1] at h1; cases h1.1
        · intro hcb; rw [hcb] at he; rw [he.1] at h1; cases h1.2
      · exact ih he.2 hok.2 c hc

theorem matchPat_sub {p : Pat} {s t : List Char}
    (hm : matchPat p s = some t) : ∃ sp, s = sp ++ t := by
  cases p with
  | lit ci w =>
    obtain ⟨sp, rfl, _⟩ := dropLit_sub hm
    exact ⟨sp, rfl⟩
  | alts ci ws =>
    obtain ⟨w, _, sp, rfl, _⟩ := dropAlts_sub hm
    exact ⟨sp, rfl⟩
  | exactK p k =>
    obtain ⟨sp, rfl, _, _⟩ := dropExact_sub hm
    exact ⟨sp, rfl⟩
  | atLeastK p k =>
    obtain ⟨rfl, _⟩ := dropAtLeast_inv hm
    exact ⟨s.takeWhile p, (List.takeWhile_append_dropWhile p s).symm⟩
  | optC p =>
    simp only [matchPat] at hm
    obtain rfl : dropOpt p s = t := by simpa using hm
    cases s with
    | nil => exact ⟨[], rfl⟩
    | cons c s =>
      by_cases hc : p c = true
      · exact ⟨[c], by simp [dropOpt, hc]⟩
      · exact ⟨[], by simp [dropOpt, hc]⟩

theorem matchSeq_sub : ∀ {ps : List Pat} {s r : List Char},
    matchSeq ps s = some r → ∃ sp, s = sp ++ r := by
  intro ps
  induction ps with
  | nil =>
    intro s r h
    obtain rfl : s = r := by simpa [matchSeq] using h
    exact ⟨[], rfl⟩
  | cons p ps ih =>
    intro s r h
    simp only [matchSeq] at h
    cases hp : matchPat p s with
    | none => rw [hp] at h; cases h
    | some t =>
      rw [hp] at h
      obtain ⟨sp1, rfl⟩ := matchPat_sub hp
      obtain ⟨sp2, rfl⟩ := ih h
      exact ⟨sp1 ++ sp2, by simp⟩

theorem matchSeq_length_le {ps : List Pat} {s r : List Char}
    (h : matchSeq ps s = some r) : r.length ≤ s.length := by
  obtain ⟨sp, rfl⟩ := matchSeq_sub h
  simp

/-- Non-optional well-formed components consume at least one character. -/
theorem matchPat_pos {p : Pat} (hwf : wfPatB p = true)
    (hnopt : isOptC p = false) {s t : List Char}
    (hm : matchPat p s = some t) : t.length < s.length := by
  cases p with
  | lit ci w =>
    obtain ⟨sp, rfl, he⟩ := dropLit_sub hm
    have hl := litEqvB_length he
    simp only [wfPatB, wordOkB, Bool.and_eq_true] at hwf
    have : w ≠ [] := by
      intro hw; rw [hw] at hwf; simp at hwf
    have : 0 < w.length := List.length_pos.2 this
    simp [List.length_append]
    omega
  | alts ci ws =>
    obtain ⟨w, hw, sp, rfl, he⟩ := dropAlts_sub hm
    have hl := litEqvB_length he
    simp only [wfPatB, Bool.and_eq_true] at hwf
    have hok := List.all_eq_true.1 hwf.1.2 w hw
    simp only [wordOkB, Bool.and_eq_true] at hok
    have : w ≠ [] := by
      intro hw2; rw [hw2] at hok; simp at hok
    have : 0 < w.length := List.length_pos.2 this
    simp [List.length_append]
    omega
  | exactK p k =>
    obtain ⟨sp, rfl, hl, _⟩ := dropExact_sub hm
    simp only [wfPatB, Bool.and_eq_true, decide_eq_true_eq] at hwf
    simp [List.length_append]
    omega
  | atLeastK p k =>
    obtain ⟨rfl, hk⟩ := dropAtLeast_inv hm
    simp only [wfPatB, Bool.and_eq_true, decide_eq_true_eq] at hwf
    have := List.takeWhile_append_dropWhile p s
    have hlen : (s.takeWhile p).length + (s.dropWhile p).length = s.length := by
      rw [← List.length_append, this]
    omega
  | optC p => simp [isOptC] at hnopt

theorem matchPat_le {p : Pat} {s t : List Char}
    (hm : matchPat p s = some t) : t.length ≤ s.length := by
  obtain ⟨sp, rfl⟩ := matchPat_sub hm
  simp

/-- A well-formed pattern consumes at least one character. -/
theorem matchSeq_pos : ∀ {ps : List Pat}, wfSeqB ps = true →
    ∀ {s r : List Char}, matchSeq ps s = some r → r.length < s.length := by
  intro ps
  induction ps with
  | nil => intro hwf; simp [wfSeqB] at hwf
  | cons p ps ih =>
    intro hwf s r h
    simp only [wfSeqB, List.all_cons, List.any_cons, Bool.and_eq_true,
      Bool.or_eq_true] at hwf
    simp only [matchSeq] at h
    cases hp : matchPat p s with
    | none => rw [hp] at h; cases h
    | some t =>
      rw [hp] at h
      by_cases hopt : isOptC p = false
      · have h1 := matchPat_pos hwf.1.1 hopt hp
        have h2 := matchSeq_length_le h
        omega
      · simp only [Bool.not_eq_false] at hopt
        have h1 := matchPat_le hp
        rcases hwf.2 with hno | hany
        · rw [hopt] at hno; cases hno
        · have h2 := ih (by simp [wfSeqB, hwf.1.2, hany]) h
          omega

theorem matchSeq_nil {ps : List Pat} (hwf : wfSeqB ps = true) :
    matchSeq ps [] = none := by
  cases h : matchSeq ps [] with
  | none => rfl
  | some r =>
    have := matchSeq_pos hwf h
    simp at this

/-- Bracket-freedom of the matched span. -/
theorem matchPat_br {p : Pat} (hwf : wfPatB p = true) {s t : List Char}
    (hm : matchPat p s = some t) :
    ∃ sp, s = sp ++ t ∧ ∀ c ∈ sp, c ≠ bra ∧ c ≠ ket := by
  cases p with
  | lit ci w =>
    obtain ⟨sp, rfl, he⟩ := dropLit_sub hm
    simp only [wfPatB, wordOkB, Bool.and_eq_true] at hwf
    exact ⟨sp, rfl, litEqvB_nobr he hwf.2⟩
  | alts ci ws =>
    obtain ⟨w, hw, sp, rfl, he⟩ := dropAlts_sub hm
    simp only [wfPatB, Bool.and_eq_true] at hwf
    have hok := List.all_eq_true.1 hwf.1.2 w hw
    simp only [wordOkB, Bool.and_eq_true] at hok
    exact ⟨sp, rfl, litEqvB_nobr he hok.2⟩
  | exactK p k =>
    obtain ⟨sp, rfl, _, ha⟩ := dropExact_sub hm
    simp only [wfPatB, Bool.and_eq_true, charOkB, Bool.not_eq_true'] at hwf
    refine ⟨sp, rfl, fun c hc => ?_⟩
    have hp := List.all_eq_true.1 ha c hc
    constructor
    · intro hcb; rw [hcb] at hp; rw [hwf.2.1] at hp; cases hp
    · intro hcb; rw [hcb] at hp; rw [hwf.2.2] at hp; cases hp
  | atLeastK p k =>
    obtain ⟨rfl, _⟩ := dropAtLeast_inv hm
    simp only [wfPatB, Bool.and_eq_true, charOkB, Bool.not_eq_true'] at hwf
    refine ⟨s.takeWhile p, (List.takeWhile_append_dropWhile p s).symm,
      fun c hc => ?_⟩
    have hp := List.mem_takeWhile_imp hc
    constructor
    · intro hcb; rw [hcb] at hp; rw [hwf.2.1] at hp; cases hp
    · intro hcb; rw [hcb] at hp; rw [hwf.2.2] at hp; cases hp
  | optC p =>
    simp only [matchPat] at hm
    obtain rfl : dropOpt p s = t := by simpa using hm
    simp only [wfPatB, charOkB, Bool.and_eq_true, Bool.not_eq_true'] at hwf
    cases s with
    | nil => exact ⟨[], rfl, by simp⟩
    | cons c s =>
      by_cases hc : p c = true
      · refine ⟨[c], by simp [dropOpt, hc], fun c' hc' => ?_⟩
        rcases List.mem_singleton.1 hc' with rfl
        constructor
        · intro hcb; rw [hcb] at hc; rw [hwf.1] at hc; cases hc
        · intro hcb; rw [hcb] at hc; rw [hwf.2] at hc; cases hc
      · exact ⟨[], by simp [dropOpt, hc], by simp⟩

theorem matchSeq_br : ∀ {ps : List Pat}, ps.all wfPatB = true →
    ∀ {s r : List Char}, matchSeq ps s = some r →
    ∃ sp, s = sp ++ r ∧ ∀ c ∈ sp, c ≠ bra ∧ c ≠ ket := by
  intro ps
  induction ps with
  | nil =>
    intro _ s r h
    obtain rfl : s = r := by simpa [matchSeq] using h
    exact ⟨[], rfl, by simp⟩
  | cons p ps ih =>
    intro hwf s r h
    simp only [List.all_cons, Bool.and_eq_true] at hwf
    simp only [matchSeq] at h
    cases hp : matchPat p s with
    | none => rw [hp] at h; cases h
    | some t =>
      rw [hp] at h
      obtain ⟨sp1, rfl, h1⟩ := matchPat_br hwf.1 hp
      obtain ⟨sp2, rfl, h2⟩ := ih hwf.2 h
      refine ⟨sp1 ++ sp2, by simp, fun c hc => ?_⟩
      rcases List.mem_append.1 hc with hc | hc
      · exact h1 c hc
      · exact h2 c hc

/-- A match consuming nothing forces all components optional. -/
theorem matchSeq_zero : ∀ {ps : List Pat}, ps.all wfPatB = true →
    ∀ {u r : List Char}, matchSeq ps u = some r → u.length ≤ r.length →
    ps.all isOptC = true ∧ r = u := by
  intro ps
  induction ps with
  | nil =>
    intro _ u r h _
    obtain rfl : u = r := by simpa [matchSeq] using h
    exact ⟨rfl, rfl⟩
  | cons p ps ih =>
    intro hwf u r h hlen
    simp only [List.all_cons, Bool.and_eq_true] at hwf
    simp only [matchSeq] at h
    cases hp : matchPat p u with
    | none => rw [hp] at h; cases h
    | some t =>
      rw [hp] at h
      have h1 := matchPat_le hp
      have h2 := matchSeq_length_le h
      have ht : t.length = u.length := by omega
      have hopt : isOptC p = true := by
        by_contra hno
        simp only [Bool.not_eq_true] at hno
        have := matchPat_pos hwf.1 hno hp
        omega
      have htu : t = u := by
        obtain ⟨sp, rfl⟩ := matchPat_sub hp
        have : sp = [] := by
          have := List.length_append sp t
          rw [ht] at this
          have hsp : sp.length = 0 := by omega
          exact List.length_eq_zero.1 hsp
        simp [this]
      subst htu
      obtain ⟨ho, rfl⟩ := ih hwf.2 h (by omega)
      exact ⟨by simp [List.all_cons, hopt, ho], rfl⟩

/-- All-optional patterns match everywhere. -/
theorem matchSeq_opts : ∀ {ps : List Pat}, ps.all isOptC = true →
    ∀ s : List Char, (matchSeq ps s).isSome := by
  intro ps
  induction ps with
  | nil => intro _ s; simp [matchSeq]
  | cons p ps ih =>
    intro hopt s
    simp only [List.all_cons, Bool.and_eq_true] at hopt
    cases p with
    | optC q =>
      simp only [matchSeq, matchPat]
      exact ih hopt.2 (dropOpt q s)
    | lit ci w => simp [isOptC] at hopt
    | alts ci ws => simp [isOptC] at hopt
    | exactK q k => simp [isOptC] at hopt
    | atLeastK q k => simp [isOptC] at hopt



theorem append_split {α : Type} {a b sp t : List α} (h : a ++ b = sp ++ t)
    (hle : sp.length ≤ a.length) :
    a = sp ++ a.drop sp.length ∧ t = a.drop sp.length ++ b := by
  have hq : a.take sp.length ++ (a.drop sp.length ++ b) = sp ++ t := by
    rw [← List.append_assoc, List.take_append_drop]
    exact h
  have hlen : (a.take sp.length).length = sp.length := by
    simp [List.length_take]
    omega
  obtain ⟨h1, h2⟩ := List.append_inj hq hlen
  constructor
  · conv_lhs => rw [← List.take_append_drop (sp.length) a]
    rw [h1]
  · exact h2.symm

/-- Reproduction for a literal word lying inside the prefix `a`. -/
theorem dropLit_stab {ci : Bool} {w a b t : List Char}
    (hm : dropLit ci w (a ++ b) = some t) (hlen : b.length ≤ t.length) :
    w.length ≤ a.length ∧ t = a.drop w.length ++ b ∧
    ∀ b2, dropLit ci w (a ++ b2) = some (a.drop w.length ++ b2) := by
  obtain ⟨sp, happ, he⟩ := dropLit_sub hm
  have hsp : sp.length = w.length := (litEqvB_length he).symm
  have hle : sp.length ≤ a.length := by
    have h1 : a.length + b.length = sp.length + t.length := by
      have := congrArg List.length happ
      simpa using this
    omega
  obtain ⟨ha, ht⟩ := append_split happ hle
  rw [hsp] at ha ht
  refine ⟨by omega, ht, fun b2 => ?_⟩
  conv_lhs => rw [ha]
  rw [List.append_assoc]
  exact dropLit_of_eqv _ he

/-- Reproduction for an exact class count lying inside the prefix `a`. -/
theorem dropExact_stab {p : Char → Bool} {k : Nat} {a b t : List Char}
    (hm : dropExact p k (a ++ b) = some t) (hlen : b.length ≤ t.length) :
    k ≤ a.length ∧ t = a.drop k ++ b ∧
    ∀ b2, dropExact p k (a ++ b2) = some (a.drop k ++ b2) := by
  obtain ⟨sp, happ, hl, hall⟩ := dropExact_sub hm
  have hle : sp.length ≤ a.length := by
    have h1 : a.length + b.length = sp.length + t.length := by
      have := congrArg List.length happ
      simpa using this
    omega
  obtain ⟨ha, ht⟩ := append_split happ hle
  rw [hl] at ha ht
  refine ⟨by omega, ht, fun b2 => ?_⟩
  conv_lhs => rw [ha]
  rw [List.append_assoc]
  have : dropExact p sp.length (sp ++ (a.drop k ++ b2)) =
      some (a.drop k ++ b2) := dropExact_of_all _ hall
  rw [hl] at this
  exact this

/-- Alternation stability: matched and failing words both behave the same
with a different continuation, given the no-strict-prefix condition. -/
theorem dropAlts_stab {ci : Bool} {ws0 : List (List Char)}
    (hnp : noStrictPfxB ci ws0 = true) :
    ∀ {ws : List (List Char)}, (∀ w ∈ ws, w ∈ ws0) →
    ∀ {a b t : List Char}, dropAlts ci ws (a ++ b) = some t →
    b.length ≤ t.length →
    ∃ k, k ≤ a.length ∧ t = a.drop k ++ b ∧
      ∀ b2, dropAlts ci ws (a ++ b2) = some (a.drop k ++ b2) := by
  intro ws
  induction ws with
  | nil => intro _ a b t h; simp [dropAlts] at h
  | cons w ws ih =>
    intro hsub a b t h hlen
    simp only [dropAlts] at h
    cases hL : dropLit ci w (a ++ b) with
    | some t' =>
      rw [hL] at h
      obtain rfl : t' = t := by simpa using h
      obtain ⟨hk, ht, hrep⟩ := dropLit_stab hL hlen
      refine ⟨w.length, hk, ht, fun b2 => ?_⟩
      simp [dropAlts, hrep b2]
    | none =>
      rw [hL] at h
      obtain ⟨k, hk, ht, hrep⟩ := ih (fun x hx => hsub x (by simp [hx])) h hlen
      refine ⟨k, hk, ht, fun b2 => ?_⟩
      have hfail : dropLit ci w (a ++ b2) = none := by
        rcases dropLit_diverge hL with hall | ⟨hlt, he⟩
        · exact hall b2
        · exfalso
          obtain ⟨w1, hw1, sp, happ, he1⟩ := dropAlts_sub h
          have hsp : sp.length = w1.length := (litEqvB_length he1).symm
          have hle : sp.length ≤ a.length := by
            have h1 : a.length + b.length = sp.length + t.length := by
              have := congrArg List.length happ
              simpa using this
            omega
          obtain ⟨ha, _⟩ := append_split happ hle
          -- derive that w1 is a strict chEq-prefix of w
          have hmap1 : w1.map (low ci) = sp.map (low ci) := litEqvB_map.1 he1
          have hmap2 : (w.take a.length).map (low ci) = a.map (low ci) :=
            litEqvB_map.1 he
          have hsp_eq : sp = a.take sp.length := by
            have h2 := congrArg (List.take sp.length) ha
            rw [List.take_left] at h2
            exact h2.symm
          have hw1a : w1.length ≤ a.length := by omega
          have hkey : litEqvB ci w1 (w.take w1.length) = true := by
            have e1 : w1.map (low ci) = (a.take w1.length).map (low ci) := by
              rw [hmap1, hsp_eq, hsp]
            have e3 : (w.take w1.length).map (low ci) =
                (a.take w1.length).map (low ci) := by
              have h4 := congrArg (List.take w1.length) hmap2
              rw [← List.map_take, ← List.map_take, List.take_take,
                Nat.min_eq_left hw1a] at h4
              exact h4
            rw [litEqvB_map, e3]
            exact e1
          have hlt1 : w1.length < w.length := by omega
          have := List.all_eq_true.1 hnp w1 (hsub w1 (by simp [hw1]))
          have := List.all_eq_true.1 this w (hsub w (by simp))
          simp only [Bool.not_eq_true', Bool.and_eq_false_iff,
            decide_eq_false_iff_not] at this
          rcases this with h' | h'
          · exact h' hlt1
          · rw [hkey] at h'; cases h'
      simp [dropAlts, hfail, hrep b2]



theorem takeWhile_length_le (p : Char → Bool) (s : List Char) :
    (s.takeWhile p).length ≤ s.length := by
  have h := congrArg List.length
    (List.takeWhile_append_dropWhile p s)
  simp only [List.length_append] at h
  omega

/-- Component stability: a match inside the prefix `a` is reproduced for
any continuation, or (for a greedy run ending exactly at the boundary, or
an optional character at the boundary) the component ends exactly at the
boundary and still matches for any continuation. -/
theorem matchPat_stab {p : Pat} (hwf : wfPatB p = true)
    {a b t : List Char} (hm : matchPat p (a ++ b) = some t)
    (hlen : b.length ≤ t.length) :
    (∃ k, k ≤ a.length ∧ t = a.drop k ++ b ∧
      ∀ b2, matchPat p (a ++ b2) = some (a.drop k ++ b2)) ∨
    (t = b ∧ ∀ b2, (matchPat p (a ++ b2)).isSome) := by
  cases p with
  | lit ci w =>
    obtain ⟨hk, ht, hrep⟩ := dropLit_stab hm hlen
    exact Or.inl ⟨w.length, hk, ht, hrep⟩
  | alts ci ws =>
    simp only [wfPatB, Bool.and_eq_true] at hwf
    obtain ⟨k, hk, ht, hrep⟩ :=
      dropAlts_stab hwf.2 (fun x hx => hx) hm hlen
    exact Or.inl ⟨k, hk, ht, hrep⟩
  | exactK q k0 =>
    obtain ⟨hk, ht, hrep⟩ := dropExact_stab hm hlen
    exact Or.inl ⟨k0, hk, ht, hrep⟩
  | atLeastK q k0 =>
    obtain ⟨rfl, hcond⟩ := dropAtLeast_inv hm
    by_cases hall : a.all q = true
    · obtain ⟨htw, hdw⟩ := takeWhile_append_all b hall
      rw [hdw]
      rw [htw] at hcond
      have hbd : (b.dropWhile q).length = b.length := by
        rw [hdw] at hlen
        have := dropWhile_length_le q b
        omega
      have htwb : b.takeWhile q = [] := dropWhile_length_eq hbd
      have hdwb : b.dropWhile q = b := by
        conv_rhs => rw [← List.takeWhile_append_dropWhile q b]
        rw [htwb, List.nil_append]
      rw [hdwb]
      refine Or.inr ⟨rfl, fun b2 => ?_⟩
      have hcond' : k0 ≤ a.length := by
        rw [htwb] at hcond
        simpa using hcond
      obtain ⟨htw2, _⟩ := takeWhile_append_all b2 hall
      simp only [matchPat, dropAtLeast, htw2]
      rw [if_pos (by simp; omega)]
      simp
    · simp only [Bool.not_eq_true] at hall
      obtain ⟨htw, hdw⟩ := takeWhile_append_not b hall
      rw [hdw]
      rw [htw] at hcond
      refine Or.inl ⟨(a.takeWhile q).length, takeWhile_length_le q a, ?_,
        fun b2 => ?_⟩
      · rw [dropWhile_eq_drop]
      · obtain ⟨htw2, hdw2⟩ := takeWhile_append_not b2 hall
        simp only [matchPat, dropAtLeast, htw2]
        rw [if_pos hcond, hdw2, dropWhile_eq_drop]
  | optC q =>
    simp only [matchPat] at hm
    obtain rfl : dropOpt q (a ++ b) = t := by simpa using hm
    cases a with
    | nil =>
      have ht : dropOpt q b = b := by
        cases b with
        | nil => rfl
        | cons c s =>
          by_cases hc : q c = true
          · exfalso
            simp only [List.nil_append, dropOpt, if_pos hc,
              List.length_cons] at hlen
            omega
          · simp [dropOpt, hc]
      rw [List.nil_append, ht]
      exact Or.inr ⟨rfl, fun b2 => by simp [matchPat]⟩
    | cons c a' =>
      by_cases hc : q c = true
      · refine Or.inl ⟨1, by simp, ?_, fun b2 => ?_⟩
        · simp [dropOpt, hc]
        · simp [matchPat, dropOpt, hc]
      · refine Or.inl ⟨0, by simp, ?_, fun b2 => ?_⟩
        · simp [dropOpt, hc]
        · simp [matchPat, dropOpt, hc]

/-- Sequence stability: if a whole pattern matches within the prefix `a`,
it still matches when the continuation is replaced. -/
theorem matchSeq_stab : ∀ {ps : List Pat}, ps.all wfPatB = true →
    ∀ {a b b2 r : List Char}, matchSeq ps (a ++ b) = some r →
    b.length ≤ r.length → (matchSeq ps (a ++ b2)).isSome := by
  intro ps
  induction ps with
  | nil => intro _ a b b2 r _ _; simp [matchSeq]
  | cons p ps ih =>
    intro hwf a b b2 r h hlen
    simp only [List.all_cons, Bool.and_eq_true] at hwf
    simp only [matchSeq] at h
    cases hp : matchPat p (a ++ b) with
    | none => rw [hp] at h; cases h
    | some t =>
      rw [hp] at h
      have hbt : b.length ≤ t.length := le_trans hlen (matchSeq_length_le h)
      rcases matchPat_stab hwf.1 hp hbt with ⟨k, _, rfl, hrep⟩ | ⟨rfl, hrep⟩
      · have hsome : (matchSeq ps (a.drop k ++ b2)).isSome :=
          ih hwf.2 h hlen
        simp only [matchSeq, hrep b2]
        exact hsome
      · obtain ⟨hopts, _⟩ := matchSeq_zero hwf.2 h hlen
        have h2 := hrep b2
        cases hp2 : matchPat p (a ++ b2) with
        | none => rw [hp2] at h2; cases h2
        | some t2 =>
          simp only [matchSeq, hp2]
          exact matchSeq_opts hopts t2



theorem substFuel_congr (ps : List Pat) : ∀ (f f' : Nat) (s : List Char),
    s.length ≤ f → s.length ≤ f' → substFuel ps f s = substFuel ps f' s := by
  intro f
  induction f with
  | zero =>
    intro f' s hf _
    have : s = [] := List.length_eq_zero.1 (by omega)
    subst this
    cases f' <;> rfl
  | succ fc ih =>
    intro f' s hf hf'
    cases s with
    | nil => cases f' <;> rfl
    | cons c cs =>
      cases f' with
      | zero => simp at hf'
      | succ fc' =>
        simp only [List.length_cons] at hf hf'
        simp only [substFuel]
        cases h : matchSeq ps (c :: cs) with
        | none =>
          show c :: substFuel ps fc cs = c :: substFuel ps fc' cs
          rw [ih fc' cs (by omega) (by omega)]
        | some rest =>
          show redacted ++
              substFuel ps fc (List.drop (cs.length - rest.length) cs) =
            redacted ++
              substFuel ps fc' (List.drop (cs.length - rest.length) cs)
          rw [ih fc' (List.drop (cs.length - rest.length) cs)
            (by rw [List.length_drop]; omega)
            (by rw [List.length_drop]; omega)]

theorem substAux_nil (ps : List Pat) : substAux ps [] = [] := rfl

theorem substAux_cons (ps : List Pat) (c : Char) (s : List Char) :
    substAux ps (c :: s) =
      match matchSeq ps (c :: s) with
      | some rest =>
        redacted ++ substAux ps (List.drop (s.length - rest.length) s)
      | none => c :: substAux ps s := by
  cases h : matchSeq ps (c :: s) with
  | none =>
    show substFuel ps (s.length + 1) (c :: s) = _
    simp only [substFuel, h]
    rfl
  | some rest =>
    show substFuel ps (s.length + 1) (c :: s) = _
    simp only [substFuel, h]
    have he : substFuel ps s.length (List.drop (s.length - rest.length) s) =
        substAux ps (List.drop (s.length - rest.length) s) :=
      substFuel_congr ps s.length _ _ (by rw [List.length_drop]; omega)
        (le_refl _)
    rw [he]

theorem substAux_of_clean : ∀ {ps : List Pat} {s : List Char},
    (∀ t, t <:+ s → matchSeq ps t = none) → substAux ps s = s := by
  intro ps s
  induction s with
  | nil => intro _; rfl
  | cons c cs ih =>
    intro hc
    rw [substAux_cons]
    simp only [hc (c :: cs) (List.suffix_refl _)]
    rw [ih fun t ht => hc t (ht.trans (List.suffix_cons c cs))]

theorem searchAux_false : ∀ {ps : List Pat} {s : List Char},
    searchAux ps s = false ↔ ∀ t, t <:+ s → matchSeq ps t = none := by
  intro ps s
  induction s with
  | nil =>
    simp only [searchAux]
    constructor
    · intro h t ht
      rw [List.suffix_nil.1 ht]
      cases hm : matchSeq ps [] with
      | none => rfl
      | some r => rw [hm] at h; simp at h
    · intro h
      rw [h [] (List.suffix_refl _)]
      rfl
  | cons c cs ih =>
    simp only [searchAux, Bool.or_eq_false_iff]
    constructor
    · rintro ⟨h1, h2⟩ t ht
      rcases List.suffix_cons_iff.1 ht with rfl | ht'
      · cases hm : matchSeq ps (c :: cs) with
        | none => rfl
        | some r => rw [hm] at h1; simp at h1
      · exact ih.1 h2 t ht'
    · intro h
      constructor
      · rw [h (c :: cs) (List.suffix_refl _)]
        rfl
      · exact ih.2 fun t ht => h t (ht.trans (List.suffix_cons c cs))

theorem searchAux_true_of_suffix : ∀ {ps : List Pat} {s t : List Char},
    t <:+ s → (matchSeq ps t).isSome → searchAux ps s = true := by
  intro ps s
  induction s with
  | nil =>
    intro t ht hm
    rw [List.suffix_nil.1 ht] at hm
    simp only [searchAux]
    exact hm
  | cons c cs ih =>
    intro t ht hm
    simp only [searchAux, Bool.or_eq_true]
    rcases List.suffix_cons_iff.1 ht with rfl | ht'
    · exact Or.inl hm
    · exact Or.inr (ih ht' hm)

theorem suffix_append_cases {α : Type} {t u v : List α} (h : t <:+ u ++ v) :
    t <:+ v ∨ ∃ w, w <:+ u ∧ w ≠ [] ∧ t = w ++ v := by
  induction u with
  | nil => left; simpa using h
  | cons x u ih =>
    rw [List.cons_append] at h
    rcases List.suffix_cons_iff.1 h with rfl | h'
    · right
      exact ⟨x :: u, List.suffix_refl _, by simp, by simp⟩
    · rcases ih h' with h2 | ⟨w, hw, hne, rfl⟩
      · left; exact h2
      · right; exact ⟨w, hw.trans (List.suffix_cons x u), hne, rfl⟩

theorem suffix_append_singleton {α : Type} {w l : List α} {a : α}
    (h : w <:+ l ++ [a]) (hne : w ≠ []) :
    ∃ w2, w2 <:+ l ∧ w = w2 ++ [a] := by
  obtain ⟨p, hp⟩ := h
  rcases w.eq_nil_or_concat with rfl | ⟨w2, b, rfl⟩
  · exact absurd rfl hne
  · rw [List.concat_eq_append, ← List.append_assoc] at hp
    obtain ⟨h1, h2⟩ := List.append_inj' hp (by simp)
    obtain rfl : b = a := by simpa using h2
    exact ⟨w2, ⟨p, h1⟩, by simp⟩

theorem substAux_take (ps : List Pat) : ∀ (s : List Char) (j : Nat),
    bra ∉ (substAux ps s).take j → (substAux ps s).take j = s.take j := by
  intro s
  induction s with
  | nil => intro j _; rfl
  | cons c cs ih =>
    intro j hb
    rw [substAux_cons] at hb ⊢
    cases h : matchSeq ps (c :: cs) with
    | some rest =>
      simp only [h] at hb ⊢
      cases j with
      | zero => simp
      | succ j' =>
        exfalso
        apply hb
        simp [redacted]
    | none =>
      simp only [h] at hb ⊢
      cases j with
      | zero => simp
      | succ j' =>
        rw [List.take_succ_cons] at hb ⊢
        have hb' : bra ∉ (substAux ps cs).take j' := by
          intro hmem
          exact hb (List.mem_cons_of_mem c hmem)
        rw [ih j' hb', List.take_succ_cons]

/-- The master lemma (fuel-indexed induction): one `re.sub` pass leaves
no match of `M` anywhere, provided `M` fails wherever the pass's own
pattern fails (so in a self-pass every replaced position is covered),
`M`-matches are nonempty, bracket-free and prefix-stable, and `M` cannot
match inside the redaction marker. -/
theorem clean_subst_fuel (M : List Char → Option (List Char))
    (hbr : BrFreeM M) (hstab : StabM M) (hred : RedSafeM M)
    (hcons : ConsumesM M) (ps : List Pat) (hwf : wfSeqB ps = true) :
    ∀ (n : Nat) (s : List Char), s.length ≤ n →
    (∀ t, t <:+ s → matchSeq ps t = none → M t = none) →
    CleanM M (substAux ps s) := by
  intro n
  induction n with
  | zero =>
    intro s hle hdom
    obtain rfl : s = [] := List.length_eq_zero.1 (by omega)
    intro t ht
    rw [substAux_nil] at ht
    rw [List.suffix_nil.1 ht]
    exact hdom [] (List.suffix_refl _) (matchSeq_nil hwf)
  | succ n ihn =>
    intro s hle hdom

    cases s with
    | nil =>
      intro t ht
      rw [substAux_nil] at ht
      rw [List.suffix_nil.1 ht]
      exact hdom [] (List.suffix_refl _) (matchSeq_nil hwf)
    | cons c cs =>
      cases hm : matchSeq ps (c :: cs) with
      | none =>
        have hout : substAux ps (c :: cs) = c :: substAux ps cs := by
          rw [substAux_cons]
          simp only [hm]
        rw [hout]
        intro t ht
        rcases List.suffix_cons_iff.1 ht with rfl | ht'
        · cases hMt : M (c :: substAux ps cs) with
          | none => rfl
          | some r =>
            exfalso
            obtain ⟨sp, hsp, hspok⟩ := hbr _ _ hMt
            have hpos : 0 < sp.length := by
              have h1 := hcons _ _ hMt
              have h2 := congrArg List.length hsp
              simp only [List.length_cons, List.length_append] at h1 h2
              omega
            cases sp with
            | nil => simp at hpos
            | cons c0 sp' =>
              have hc0 : c0 = c ∧ substAux ps cs = sp' ++ r := by
                have h3 := hsp
                simp only [List.cons_append, List.cons.injEq] at h3
                exact ⟨h3.1.symm, h3.2⟩
              obtain ⟨rfl, htail⟩ := hc0
              have hspfree : bra ∉ (substAux ps cs).take sp'.length := by
                intro hmem
                rw [htail, List.take_left] at hmem
                exact (hspok bra (List.mem_cons_of_mem _ hmem)).1 rfl
              have hsp' : sp' = cs.take sp'.length := by
                rw [← substAux_take ps cs sp'.length hspfree, htail,
                  List.take_left]
              have hfill : sp' ++ cs.drop sp'.length = cs := by
                nth_rewrite 1 [hsp']
                exact List.take_append_drop _ _
              have hMa : M ((c0 :: sp') ++ r) = some r := by
                have h4 : (c0 :: sp') ++ r = c0 :: substAux ps cs := by
                  simp [htail]
                rw [h4]
                exact hMt
              have hsome := hstab (c0 :: sp') r (cs.drop sp'.length) r hMa
                (le_refl _)
              have heq : (c0 :: sp') ++ cs.drop sp'.length = c0 :: cs := by
                rw [List.cons_append, hfill]
              rw [heq] at hsome
              rw [hdom (c0 :: cs) (List.suffix_refl _) hm] at hsome
              simp at hsome
        · exact ihn cs (by simp only [List.length_cons] at hle; omega)
            (fun t2 ht2 hm2 => hdom t2 (ht2.trans (List.suffix_cons c cs)) hm2)
            t ht'
      | some rest =>
        obtain ⟨sp, hsp⟩ := matchSeq_sub hm
        have hrsuf : rest <:+ cs := by
          have hlt := matchSeq_pos hwf hm
          rcases List.suffix_cons_iff.1 ⟨sp, hsp.symm⟩ with hfull | h
          · exfalso
            have h5 := congrArg List.length hfull
            simp only [List.length_cons] at h5 hlt
            omega
          · exact h
        have hdropeq : List.drop (cs.length - rest.length) cs = rest := by
          obtain ⟨p, rfl⟩ := hrsuf
          simp [List.drop_left]
        have hout : substAux ps (c :: cs) = redacted ++ substAux ps rest := by
          rw [substAux_cons]
          simp only [hm, hdropeq]
        rw [hout]
        have hclean : CleanM M (substAux ps rest) := by
          have h8 := List.IsSuffix.length_le hrsuf
          simp only [List.length_cons] at hle
          exact ihn rest (by omega)
            (fun t2 ht2 hm2 =>
              hdom t2 ((ht2.trans hrsuf).trans (List.suffix_cons c cs)) hm2)
        intro t ht
        rcases suffix_append_cases ht with ht' | ⟨w, hw, hne, rfl⟩
        · exact hclean t ht'
        · rcases List.suffix_cons_iff.1 hw with rfl | hw'
          · cases hMt : M ((bra :: (redactedCore ++ [ket])) ++ substAux ps rest)
              with
            | none => rfl
            | some r =>
              exfalso
              obtain ⟨sp2, hsp2, hok2⟩ := hbr _ _ hMt
              have hpos2 : 0 < sp2.length := by
                have h1 := hcons _ _ hMt
                have h2 := congrArg List.length hsp2
                simp only [List.length_cons, List.length_append] at h1 h2
                omega
              cases sp2 with
              | nil => simp at hpos2
              | cons c0 sp2' =>
                have hc0 : c0 = bra := by
                  have h3 := hsp2
                  simp only [List.cons_append, List.cons.injEq] at h3
                  exact h3.1.symm
                exact (hok2 c0 (by simp)).1 hc0
          · obtain ⟨w2, hw2, rfl⟩ := suffix_append_singleton hw' hne
            rw [List.append_assoc, List.singleton_append]
            exact hred w2 (substAux ps rest) hw2


theorem clean_subst (M : List Char → Option (List Char))
    (hbr : BrFreeM M) (hstab : StabM M) (hred : RedSafeM M)
    (hcons : ConsumesM M) (ps : List Pat) (hwf : wfSeqB ps = true)
    (s : List Char)
    (hdom : ∀ t, t <:+ s → matchSeq ps t = none → M t = none) :
    CleanM M (substAux ps s) :=
  clean_subst_fuel M hbr hstab hred hcons ps hwf s.length s (le_refl _) hdom



theorem wfSeqB_all {ps : List Pat} (h : wfSeqB ps = true) :
    ps.all wfPatB = true := by
  simp only [wfSeqB, Bool.and_eq_true] at h
  exact h.1

theorem wf_pat1 : wfSeqB pat1 = true := by decide
theorem wf_pat2 : wfSeqB pat2 = true := by decide
theorem wf_pat3 : wfSeqB pat3 = true := by decide
theorem wf_pat4 : wfSeqB pat4 = true := by decide
theorem wf_pat5 : wfSeqB pat5 = true := by decide
theorem wf_pat6 : wfSeqB pat6 = true := by decide
theorem wf_pat7 : wfSeqB pat7 = true := by decide
theorem wf_pat8 : wfSeqB pat8 = true := by decide

theorem redsafe_pat1 : RedSafeM (matchSeq pat1) := by
  intro w rest hw
  rw [redactedCore] at hw
  repeat' rcases List.suffix_cons_iff.1 hw with rfl | hw
  all_goals first
    | rfl
    | (rw [List.suffix_nil.1 hw]; rfl)

theorem redsafe_pat2 : RedSafeM (matchSeq pat2) := by
  intro w rest hw
  rw [redactedCore] at hw
  repeat' rcases List.suffix_cons_iff.1 hw with rfl | hw
  all_goals first
    | rfl
    | (rw [List.suffix_nil.1 hw]; rfl)

theorem redsafe_pat3 : RedSafeM (matchSeq pat3) := by
  intro w rest hw
  rw [redactedCore] at hw
  repeat' rcases List.suffix_cons_iff.1 hw with rfl | hw
  all_goals first
    | rfl
    | (rw [List.suffix_nil.1 hw]; rfl)

theorem redsafe_pat4 : RedSafeM (matchSeq pat4) := by
  intro w rest hw
  rw [redactedCore] at hw
  repeat' rcases List.suffix_cons_iff.1 hw with rfl | hw
  all_goals first
    | rfl
    | (rw [List.suffix_nil.1 hw]; rfl)

theorem redsafe_pat5 : RedSafeM (matchSeq pat5) := by
  intro w rest hw
  rw [redactedCore] at hw
  repeat' rcases List.suffix_cons_iff.1 hw with rfl | hw
  all_goals first
    | rfl
    | (rw [List.suffix_nil.1 hw]; rfl)

theorem redsafe_pat6 : RedSafeM (matchSeq pat6) := by
  intro w rest hw
  rw [redactedCore] at hw
  repeat' rcases List.suffix_cons_iff.1 hw with rfl | hw
  all_goals first
    | rfl
    | (rw [List.suffix_nil.1 hw]; rfl)

theorem redsafe_pat7 : RedSafeM (matchSeq pat7) := by
  intro w rest hw
  rw [redactedCore] at hw
  repeat' rcases List.suffix_cons_iff.1 hw with rfl | hw
  all_goals first
    | rfl
    | (rw [List.suffix_nil.1 hw]; rfl)

theorem redsafe_pat8 : RedSafeM (matchSeq pat8) := by
  intro w rest hw
  rw [redactedCore] at hw
  repeat' rcases List.suffix_cons_iff.1 hw with rfl | hw
  all_goals first
    | rfl
    | (rw [List.suffix_nil.1 hw]; rfl)

/-- A pass over its own pattern leaves no match of that pattern. -/
theorem clean_subst_self (ps : List Pat) (hwf : wfSeqB ps = true)
    (hred : RedSafeM (matchSeq ps)) (s : List Char) :
    CleanM (matchSeq ps) (substAux ps s) :=
  clean_subst _ (fun _ _ h => matchSeq_br (wfSeqB_all hwf) h)
    (fun _ _ _ _ hm hl => matchSeq_stab (wfSeqB_all hwf) hm hl) hred
    (fun _ _ h => matchSeq_pos hwf h) ps hwf s (fun _ _ hm => hm)

/-- A pass over another pattern preserves cleanliness. -/
theorem clean_subst_other (psM ps : List Pat) (hwfM : wfSeqB psM = true)
    (hredM : RedSafeM (matchSeq psM)) (hwf : wfSeqB ps = true)
    (s : List Char) (hc : CleanM (matchSeq psM) s) :
    CleanM (matchSeq psM) (substAux ps s) :=
  clean_subst _ (fun _ _ h => matchSeq_br (wfSeqB_all hwfM) h)
    (fun _ _ _ _ hm hl => matchSeq_stab (wfSeqB_all hwfM) hm hl) hredM
    (fun _ _ h => matchSeq_pos hwfM h) ps hwf s (fun t ht _ => hc t ht)

theorem clean_sl_pat1 (s : List Char) :
    CleanM (matchSeq pat1) (sanitizeL s) := by
  unfold sanitizeL
  apply clean_subst_other pat1 pat8 wf_pat1 redsafe_pat1 wf_pat8
  apply clean_subst_other pat1 pat7 wf_pat1 redsafe_pat1 wf_pat7
  apply clean_subst_other pat1 pat6 wf_pat1 redsafe_pat1 wf_pat6
  apply clean_subst_other pat1 pat5 wf_pat1 redsafe_pat1 wf_pat5
  apply clean_subst_other pat1 pat4 wf_pat1 redsafe_pat1 wf_pat4
  apply clean_subst_other pat1 pat3 wf_pat1 redsafe_pat1 wf_pat3
  apply clean_subst_other pat1 pat2 wf_pat1 redsafe_pat1 wf_pat2
  exact clean_subst_self pat1 wf_pat1 redsafe_pat1 s

theorem clean_sl_pat2 (s : List Char) :
    CleanM (matchSeq pat2) (sanitizeL s) := by
  unfold sanitizeL
  apply clean_subst_other pat2 pat8 wf_pat2 redsafe_pat2 wf_pat8
  apply clean_subst_other pat2 pat7 wf_pat2 redsafe_pat2 wf_pat7
  apply clean_subst_other pat2 pat6 wf_pat2 redsafe_pat2 wf_pat6
  apply clean_subst_other pat2 pat5 wf_pat2 redsafe_pat2 wf_pat5
  apply clean_subst_other pat2 pat4 wf_pat2 redsafe_pat2 wf_pat4
  apply clean_subst_other pat2 pat3 wf_pat2 redsafe_pat2 wf_pat3
  exact clean_subst_self pat2 wf_pat2 redsafe_pat2 _

theorem clean_sl_pat3 (s : List Char) :
    CleanM (matchSeq pat3) (sanitizeL s) := by
  unfold sanitizeL
  apply clean_subst_other pat3 pat8 wf_pat3 redsafe_pat3 wf_pat8
  apply clean_subst_other pat3 pat7 wf_pat3 redsafe_pat3 wf_pat7
  apply clean_subst_other pat3 pat6 wf_pat3 redsafe_pat3 wf_pat6
  apply clean_subst_other pat3 pat5 wf_pat3 redsafe_pat3 wf_pat5
  apply clean_subst_other pat3 pat4 wf_pat3 redsafe_pat3 wf_pat4
  exact clean_subst_self pat3 wf_pat3 redsafe_pat3 _

theorem clean_sl_pat4 (s : List Char) :
    CleanM (matchSeq pat4) (sanitizeL s) := by
  unfold sanitizeL
  apply clean_subst_other pat4 pat8 wf_pat4 redsafe_pat4 wf_pat8
  apply clean_subst_other pat4 pat7 wf_pat4 redsafe_pat4 wf_pat7
  apply clean_subst_other pat4 pat6 wf_pat4 redsafe_pat4 wf_pat6
  apply clean_subst_other pat4 pat5 wf_pat4 redsafe_pat4 wf_pat5
  exact clean_subst_self pat4 wf_pat4 redsafe_pat4 _

theorem clean_sl_pat5 (s : List Char) :
    CleanM (matchSeq pat5) (sanitizeL s) := by
  unfold sanitizeL
  apply clean_subst_other pat5 pat8 wf_pat5 redsafe_pat5 wf_pat8
  apply clean_subst_other pat5 pat7 wf_pat5 redsafe_pat5 wf_pat7
  apply clean_subst_other pat5 pat6 wf_pat5 redsafe_pat5 wf_pat6
  exact clean_subst_self pat5 wf_pat5 redsafe_pat5 _

theorem clean_sl_pat6 (s : List Char) :
    CleanM (matchSeq pat6) (sanitizeL s) := by
  unfold sanitizeL
  apply clean_subst_other pat6 pat8 wf_pat6 redsafe_pat6 wf_pat8
  apply clean_subst_other pat6 pat7 wf_pat6 redsafe_pat6 wf_pat7
  exact clean_subst_self pat6 wf_pat6 redsafe_pat6 _

theorem clean_sl_pat7 (s : List Char) :
    CleanM (matchSeq pat7) (sanitizeL s) := by
  unfold sanitizeL
  apply clean_subst_other pat7 pat8 wf_pat7 redsafe_pat7 wf_pat8
  exact clean_subst_self pat7 wf_pat7 redsafe_pat7 _

theorem clean_sl_pat8 (s : List Char) :
    CleanM (matchSeq pat8) (sanitizeL s) :=
  clean_subst_self pat8 wf_pat8 redsafe_pat8 _

theorem sanitize_content_eq (t : String) :
    sanitize_content t = String.mk (sanitizeL t.data) := by
  simp only [sanitize_content, SECRET_PATTERNS, List.foldl_cons,
    List.foldl_nil, sanitizeL]

theorem sanitizeL_idem (d : List Char) :
    sanitizeL (sanitizeL d) = sanitizeL d := by
  conv_lhs => rw [sanitizeL]
  rw [substAux_of_clean (clean_sl_pat1 d),
    substAux_of_clean (clean_sl_pat2 d),
    substAux_of_clean (clean_sl_pat3 d),
    substAux_of_clean (clean_sl_pat4 d),
    substAux_of_clean (clean_sl_pat5 d),
    substAux_of_clean (clean_sl_pat6 d),
    substAux_of_clean (clean_sl_pat7 d),
    substAux_of_clean (clean_sl_pat8 d)]



/-- C8: sanitization is idempotent: re-sanitizing sanitized text changes
nothing, for every input string. -/
theorem c8_sanitize_idempotent (x : String) :
    sanitize_content (sanitize_content x) = sanitize_content x := by
  rw [sanitize_content_eq x, sanitize_content_eq (String.mk (sanitizeL x.data))]
  show String.mk (sanitizeL (sanitizeL x.data)) = String.mk (sanitizeL x.data)
  rw [sanitizeL_idem]

/-- C10: on text with no secret-pattern match — in particular on any text
that validates as ok — `sanitize_content` is the identity; consequently,
on the loop's success path the content sent to the external API equals
the raw validated Decision text. -/
theorem c10_clean_text_unchanged (x t c : String) (api : MoltbookApi) :
    (contains_secrets x = false → sanitize_content x = x) ∧
    ((validate_output_content x).1 = true → sanitize_content x = x) ∧
    ((validate_output_content t).1 = true →
     (validate_output_content c).1 = true →
     t.isEmpty = false → c.isEmpty = false →
     (run_agent_exec api
       { action := .post, title := some t, content := some c }).2.2 =
       [ApiCall.createPost t c "general"]) := by
  have key : ∀ y : String, contains_secrets y = false →
      sanitize_content y = y := by
    intro y hy
    simp only [contains_secrets, SECRET_PATTERNS, List.any_cons, List.any_nil,
      Bool.or_eq_false_iff] at hy
    obtain ⟨h1, h2, h3, h4, h5, h6, h7, h8, -⟩ := hy
    rw [sanitize_content_eq]
    have hl : sanitizeL y.data = y.data := by
      unfold sanitizeL
      rw [substAux_of_clean (searchAux_false.1 h1),
        substAux_of_clean (searchAux_false.1 h2),
        substAux_of_clean (searchAux_false.1 h3),
        substAux_of_clean (searchAux_false.1 h4),
        substAux_of_clean (searchAux_false.1 h5),
        substAux_of_clean (searchAux_false.1 h6),
        substAux_of_clean (searchAux_false.1 h7),
        substAux_of_clean (searchAux_false.1 h8)]
    rw [hl]
  have val_to_cs : ∀ y : String, (validate_output_content y).1 = true →
      contains_secrets y = false := by
    intro y hv
    by_cases hcs : contains_secrets y = true
    · simp [validate_output_content, hcs] at hv
    · simpa using hcs
  refine ⟨key x, fun hv => key x (val_to_cs x hv),
    fun hvt hvc hte hce => ?_⟩
  rcases hv1 : validate_output_content t with ⟨bt, et⟩
  rcases hv2 : validate_output_content c with ⟨bc, ec⟩
  rw [hv1] at hvt
  rw [hv2] at hvc
  simp only at hvt hvc
  subst hvt
  subst hvc
  have hst : sanitize_content t = t := key t (val_to_cs t (by rw [hv1]))
  have hsc : sanitize_content c = c := key c (val_to_cs c (by rw [hv2]))
  simp [run_agent_exec, optTruthy, hte, hce, hv1, hv2, hst, hsc]

/-- C6, counterexample: 64 uppercase hexadecimal characters are a
64-hexadecimal-character substring, yet validation passes and
sanitization leaves the text unchanged: the code's 64-hex pattern
`[a-f0-9]{64}` is lowercase-only. -/
theorem c6_counterexample :
    hexUpper64.data = List.replicate 64 'A' ∧
    validate_output_content hexUpper64 = (true, none) ∧
    sanitize_content hexUpper64 = hexUpper64 :=
  ⟨rfl, by decide, by decide⟩

/-- C6, amended: for every text containing a 64-character substring of
lowercase hexadecimal characters, `validate_output_content` returns
not-ok with the secrets reason, and `sanitize_content` removes that
substring (it occurs nowhere in the output). -/
theorem c6_amended_hex_secret (t : String) (u hx v : List Char)
    (ht : t.data = u ++ hx ++ v) (hlen : hx.length = 64)
    (hhex : hx.all isLowerHex = true) :
    validate_output_content t =
      (false, some "Content contains potential secrets") ∧
    ∀ u2 v2, (sanitize_content t).data ≠ u2 ++ hx ++ v2 := by
  have hmatch : ∀ v2 : List Char, matchSeq pat6 (hx ++ v2) = some v2 := by
    intro v2
    have hde : dropExact isLowerHex 64 (hx ++ v2) = some v2 := by
      have h0 := dropExact_of_all v2 hhex
      rw [hlen] at h0
      exact h0
    simp [matchSeq, matchPat, pat6, hde]
  have hcs : contains_secrets t = true := by
    have h6 : searchAux pat6 t.data = true :=
      searchAux_true_of_suffix
        ⟨u, by rw [← List.append_assoc]; exact ht.symm⟩
        (by rw [hmatch v]; rfl)
    simp [contains_secrets, SECRET_PATTERNS, h6]
  refine ⟨by simp [validate_output_content, hcs], fun u2 v2 habs => ?_⟩
  rw [sanitize_content_eq] at habs
  have habs2 : sanitizeL t.data = u2 ++ (hx ++ v2) := by
    rw [← List.append_assoc]
    exact habs
  have hsuf2 : hx ++ v2 <:+ sanitizeL t.data := ⟨u2, habs2.symm⟩
  have hnone := clean_sl_pat6 t.data (hx ++ v2) hsuf2
  rw [hmatch v2] at hnone
  cases hnone

theorem c6_witness :
    validate_output_content (String.mk hexLower64) =
      (false, some "Content contains potential secrets") ∧
    ∀ u2 v2,
      (sanitize_content (String.mk hexLower64)).data ≠
        u2 ++ hexLower64 ++ v2 :=
  c6_amended_hex_secret (String.mk hexLower64) [] hexLower64 []
    (by decide) (by decide) (by decide)

theorem c10_witness :
    sanitize_content "Liquidity depth matters more than headlines." =
      "Liquidity depth matters more than headlines." :=
  (c10_clean_text_unchanged
    "Liquidity depth matters more than headlines." "t" "c" okApi).1
    (by decide)


end Aiathena
